import Mathlib

/-!
# yksofttoken: a shallow embedding of the OTP core

Go values are embedded as follows.

* A `byte` is `Byte = Fin 256`; a `[]byte`, a `[n]byte` array and a `string` are `List Byte`
  (Go strings are byte sequences).
* `uint8`, `uint16`, `uint32` values are natural numbers, reduced `% 2 ^ w` wherever the Go
  operation can leave the range; `int64` values are integers, wrapped by `wrapInt64`.
* A function returning a slice or a pointer with an `error` returns `Except Err T`; one
  returning `(string, error)` returns the pair `StringResult`, so that the string returned
  next to an error is part of the model. A method that writes to its receiver returns the
  receiver after the call as well.
* The outside world (random source, clock, block cipher, Unicode tables) is passed in
  explicitly.
-/

namespace YkSoft

/-! ## Bytes and strings -/

/-- One Go `byte`. -/
abbrev Byte := Fin 256

/-- The Go conversion `byte(n)` of an unsigned integer: keeps the low eight bits. -/
def toByte (n : Nat) : Byte := ⟨n % 256, Nat.mod_lt _ (by decide)⟩

/-- An ASCII string literal as a Go string (its bytes). -/
def str (s : String) : List Byte := s.toList.map (fun c => toByte c.toNat)

/-! ## internal/yubikey/crc.go -/

/-- The body of the inner loop of `CRC16`: one shift of the register, with the reversed
polynomial folded in when the bit shifted out is set. -/
def crcShift (crc : Nat) : Nat :=
  if crc &&& 1 ≠ 0 then (crc >>> 1) ^^^ 0x8408 else crc >>> 1

/-- The body of the outer loop of `CRC16`: `crc ^= uint16(b)` followed by eight shifts. -/
def crcByte (crc : Nat) (b : Byte) : Nat :=
  crcShift^[8] (crc ^^^ b.val)

/-- The function `CRC16(data)`: the register starts at `0xffff` and absorbs the bytes in
order. -/
def CRC16 (data : List Byte) : Nat :=
  data.foldl crcByte 0xffff

/-- The constant `CRCOKResidual`. -/
def CRCOKResidual : Nat := 0xf0b8

/-- The Go operator `^x` on a `uint16`. -/
def not16 (x : Nat) : Nat := x ^^^ 0xffff

/-! ## Errors -/

deriving instance DecidableEq for Except

/-- The error values the code can return, one constructor for each place that builds one. -/
inductive Err where
  /-- The text "modhex string must have even length". -/
  | modhexOddLength
  /-- The text "invalid modhex character". -/
  | modhexInvalidChar
  /-- The text "hex string must have even length". -/
  | hexOddLength
  /-- The text "invalid hex character". -/
  | hexInvalidChar
  /-- The library value `aes.KeySizeError(n)`. -/
  | keySize (n : Nat)
  /-- The text "token counter at max, token must be regenerated". -/
  | counterAtMax
  /-- The failure of `rand.Read`, as the library reports it. -/
  | randRead
  /-- The library values `strconv.ErrSyntax` inside a `NumError`. -/
  | numFormat
  /-- The library value `strconv.ErrRange` inside a `NumError`. -/
  | numRange
  /-- The text "lastuse time travel detected". -/
  | timeTravel
  /-- The library value `bufio.ErrTooLong`. -/
  | lineTooLong
  /-- The variable `ErrInvalidLength` of errors.go, the text "invalid data length". -/
  | invalidLength
  /-- An error wrapped by `fmt.Errorf(context + ": %w", cause)`. -/
  | wrapped (context : String) (cause : Err)
  deriving DecidableEq, Repr

/-! ## internal/yubikey/modhex.go -/

/-- The constant `modHexAlphabet`. -/
def modHexAlphabet : List Byte := str "cbdefghijklnrtuv"

/-- The variable `hexAlphabet`. -/
def hexAlphabet : List Byte := str "0123456789abcdef"

/-- The map `modHexDecode` as `init` fills it: for `i` from 0 to 15 the entry at
`modHexAlphabet[i]` is set to `i`, a later assignment replacing an earlier one. The result is
the lookup `modHexDecode[c]`, `none` when the key is absent. -/
def modHexDecode (c : Byte) : Option Byte :=
  (List.range 16).foldl
    (fun m i => if modHexAlphabet.getD i 0 = c then some (toByte i) else m) none

/-- ASCII lower-casing of one byte, as in the ASCII path of `strings.ToLower`. -/
def lowerByte (c : Byte) : Byte :=
  if 65 ≤ c.val ∧ c.val ≤ 90 then toByte (c.val + 32) else c

/-- The library function `strings.ToLower`. On a string of ASCII bytes it lower-cases the
letters `A` to `Z`; on any other string it is `strings.Map(unicode.ToLower, s)`, which
depends on the Unicode tables and is the parameter `uni`. -/
def ToLower (uni : List Byte → List Byte) (s : List Byte) : List Byte :=
  if s.all (fun c => c.val < 0x80) then s.map lowerByte else uni s

/-- The function `ModHexEncode(data)`: two alphabet symbols for each byte, high nibble
first. -/
def ModHexEncode : List Byte → List Byte
  | [] => []
  | b :: rest =>
    modHexAlphabet.getD (b.val >>> 4) 0 :: modHexAlphabet.getD (b.val &&& 0x0f) 0
      :: ModHexEncode rest

/-- The loop of `ModHexDecode` over the pairs of symbols of a string of even length. -/
def modHexDecodePairs : List Byte → Except Err (List Byte)
  | hi :: lo :: rest =>
    match modHexDecode hi, modHexDecode lo with
    | some high, some low =>
      match modHexDecodePairs rest with
      | .ok bytes => .ok (toByte (((high.val <<< 4) % 256) ||| low.val) :: bytes)
      | .error e => .error e
    | _, _ => .error .modhexInvalidChar
  | _ => .ok []

/-- The function `ModHexDecode(s)`: lower-case, check that the length is even, then decode
the pairs. -/
def ModHexDecode (uni : List Byte → List Byte) (s : List Byte) : Except Err (List Byte) :=
  let s := ToLower uni s
  if s.length % 2 ≠ 0 then .error .modhexOddLength else modHexDecodePairs s

/-- The function `HexEncode(data)`: two hex digits for each byte, high nibble first. -/
def HexEncode : List Byte → List Byte
  | [] => []
  | b :: rest =>
    hexAlphabet.getD (b.val >>> 4) 0 :: hexAlphabet.getD (b.val &&& 0x0f) 0 :: HexEncode rest

/-- The value of one hex digit in `HexDecode`: `c - 48` for `0` to `9`, `c - 97 + 10` for
`a` to `f`, nothing for any other byte. -/
def hexNibble (c : Byte) : Option Byte :=
  if 48 ≤ c.val ∧ c.val ≤ 57 then some (toByte (c.val - 48))
  else if 97 ≤ c.val ∧ c.val ≤ 102 then some (toByte (c.val - 97 + 10))
  else none

/-- The loop of `HexDecode` over the pairs of digits of a string of even length. -/
def hexDecodePairs : List Byte → Except Err (List Byte)
  | hi :: lo :: rest =>
    match hexNibble hi with
    | none => .error .hexInvalidChar
    | some high =>
      match hexNibble lo with
      | none => .error .hexInvalidChar
      | some low =>
        match hexDecodePairs rest with
        | .ok bytes => .ok (toByte (((high.val <<< 4) % 256) ||| low.val) :: bytes)
        | .error e => .error e
  | _ => .ok []

/-- The function `HexDecode(s)`: lower-case, check that the length is even, then decode the
pairs. -/
def HexDecode (uni : List Byte → List Byte) (s : List Byte) : Except Err (List Byte) :=
  let s := ToLower uni s
  if s.length % 2 ≠ 0 then .error .hexOddLength else hexDecodePairs s

/-! ## internal/yubikey/token.go and aes.go -/

/-- The builtin `copy(dst, src)`: the first `min(len(dst), len(src))` bytes of `dst` are
replaced by those of `src`. The result is the new content of `dst`. -/
def copyInto (dst src : List Byte) : List Byte :=
  src.take dst.length ++ dst.drop src.length

/-- The two bytes written by `binary.LittleEndian.PutUint16(b, v)`. -/
def putUint16 (v : Nat) : List Byte := [toByte v, toByte (v >>> 8)]

/-- The struct `TokenBlock`. -/
structure TokenBlock where
  /-- Private ID, `[6]byte`. -/
  UID : List Byte
  /-- Usage counter, `uint16`. -/
  Counter : Nat
  /-- Timestamp, `uint32`. -/
  Timestamp : Nat
  /-- Session use counter, `uint8`. -/
  Session : Nat
  /-- Random value, `uint16`. -/
  Random : Nat
  /-- Checksum, `uint16`. -/
  CRC : Nat
  deriving DecidableEq, Repr

/-- The method `MarshalBinary`: the sixteen bytes of the block, region by region in the order in
which the code fills its zeroed buffer. -/
def TokenBlock.MarshalBinary (t : TokenBlock) : List Byte :=
  copyInto (List.replicate 6 0) t.UID
    ++ putUint16 t.Counter
    ++ putUint16 ((t.Timestamp &&& 0xffff) % 65536)
    ++ [toByte ((t.Timestamp >>> 16) &&& 0xff)]
    ++ [toByte t.Session]
    ++ putUint16 t.Random
    ++ putUint16 t.CRC

/-- The method `ComputeCRC`: the block with its `CRC` field set to the complement of the checksum of
the first fourteen marshalled bytes. -/
def TokenBlock.ComputeCRC (t : TokenBlock) : TokenBlock :=
  { t with CRC := not16 (CRC16 (t.MarshalBinary.take 14)) }

/-- The library function `aes.NewCipher`, as far as its error goes: it accepts keys of 16,
24 and 32 bytes and answers `KeySizeError` for any other length. -/
def aesNewCipher (key : List Byte) : Except Err Unit :=
  if key.length = 16 ∨ key.length = 24 ∨ key.length = 32 then .ok ()
  else .error (.keySize key.length)

/-- The function `AESEncrypt(key, plaintext)`. The block cipher of `crypto/aes` is the parameter
`cipher`; what it computes is written into the 16-byte buffer `ciphertext`. -/
def AESEncrypt (cipher : List Byte → List Byte → List Byte) (key plaintext : List Byte) :
    Except Err (List Byte) :=
  if key.length ≠ 16 ∨ plaintext.length ≠ 16 then .error (.keySize key.length)
  else
    match aesNewCipher key with
    | .error e => .error e
    | .ok _ => .ok (copyInto (List.replicate 16 0) (cipher key plaintext))

/-- A Go result pair `(string, error)`. -/
structure StringResult where
  /-- The string. -/
  text : List Byte
  /-- The error, `none` for `nil`. -/
  err : Option Err
  deriving DecidableEq, Repr

/-- The method `Generate(key)`: the block after the call (its checksum is stamped) and
the result. -/
def TokenBlock.Generate (cipher : List Byte → List Byte → List Byte) (t : TokenBlock)
    (key : List Byte) : TokenBlock × StringResult :=
  let t := t.ComputeCRC
  let plaintext := t.MarshalBinary
  match AESEncrypt cipher key plaintext with
  | .error e => (t, ⟨[], some e⟩)
  | .ok ciphertext => (t, ⟨ModHexEncode ciphertext, none⟩)

/-! ## internal/token/token.go: the token and OTP generation -/

/-- The struct `SoftToken`. -/
structure SoftToken where
  /-- Public identifier, `[6]byte`. -/
  PublicID : List Byte
  /-- Private identifier, `[6]byte`. -/
  PrivateID : List Byte
  /-- AES key, `[16]byte`. -/
  AESKey : List Byte
  /-- Usage counter, `uint16`. -/
  Counter : Nat
  /-- Session use counter, `uint8`. -/
  Session : Nat
  /-- Unix time of creation, `int64`. -/
  Created : Int
  /-- Unix time of last use, `int64`. -/
  LastUse : Int
  /-- Power-on random value, `uint32`. -/
  PonRand : Nat
  deriving DecidableEq, Repr

/-- The value of an integer expression as an `int64` (two-complement wrap-around). -/
def wrapInt64 (x : Int) : Int := (x + 9223372036854775808) % 18446744073709551616
  - 9223372036854775808

/-- The Go conversion `uint32(x)` of an `int64`. -/
def toUint32 (x : Int) : Nat := (x % 4294967296).toNat

/-- The library function `binary.LittleEndian.Uint16(b)`. -/
def uint16LE (b : List Byte) : Nat :=
  (b.getD 0 0).val ||| ((b.getD 1 0).val <<< 8)

/-- The library function `binary.LittleEndian.Uint32(b)`. -/
def uint32LE (b : List Byte) : Nat :=
  (b.getD 0 0).val ||| ((b.getD 1 0).val <<< 8) ||| ((b.getD 2 0).val <<< 16)
    ||| ((b.getD 3 0).val <<< 24)

/-- The library function `rand.Read(buf)` on a zeroed buffer of `n` bytes: `source` is what
the random source delivers, `none` when it fails. The result is the buffer after the call. -/
def randRead (n : Nat) (source : Option (List Byte)) : Except Err (List Byte) :=
  match source with
  | none => .error .randRead
  | some bytes => .ok (copyInto (List.replicate n 0) bytes)

/-- What one call of `GenerateOTP` observes of the outside world. -/
structure OTPWorld where
  /-- The random source at the read of `ponRandBytes` (consulted only on a session wrap). -/
  ponRand : Option (List Byte)
  /-- The first reading `time.Now().Unix()`. -/
  now : Int
  /-- The reading `time.Now().Unix()` after the one-second sleep (consulted only when the
  call sleeps). -/
  nowAfterSleep : Int
  /-- The random source at the read of `rndBytes`. -/
  rnd : Option (List Byte)

/-- The first step of `GenerateOTP`, "update session counter": the token after the step and
the error with which the call returns there, if any. -/
def advanceSession (w : OTPWorld) (t : SoftToken) : SoftToken × Option Err :=
  if t.Session = 0xff then
    if t.Counter ≥ 0x7fff then (t, some .counterAtMax)
    else
      let t := { t with Counter := (t.Counter + 1) % 65536 }
      match randRead 4 w.ponRand with
      | .error e => (t, some (.wrapped "failed to generate ponrand" e))
      | .ok ponRandBytes =>
        ({ t with PonRand := uint32LE ponRandBytes &&& 0xfffffff0, Session := 1 }, none)
  else ({ t with Session := (t.Session + 1) % 256 }, none)

/-- The second step of `GenerateOTP`, "handle rate limiting": the token after the step and
the value of the local variable `now`. -/
def rateLimit (w : OTPWorld) (t : SoftToken) : SoftToken × Int :=
  if w.now = t.LastUse then
    if (t.PonRand &&& 0x0000000f) > 6 then
      ({ t with PonRand := t.PonRand &&& 0xfffffff0 }, w.nowAfterSleep)
    else ({ t with PonRand := (t.PonRand + 1) % 4294967296 }, w.now)
  else ({ t with LastUse := w.now, PonRand := t.PonRand &&& 0xfffffff0 }, w.now)

/-- The local variable `hzTime` of `GenerateOTP`: `uint32((now-t.Created)*8) + t.PonRand` in
32-bit arithmetic, then `%= 0xffffff`. -/
def hzTime (t : SoftToken) (now : Int) : Nat :=
  ((toUint32 (wrapInt64 (wrapInt64 (now - t.Created) * 8)) + t.PonRand) % 4294967296)
    % 0xffffff

/-- The part of `GenerateOTP` up to and including "create token block": the token after it,
and the block or the error with which the call returns. -/
def prepareBlock (w : OTPWorld) (t : SoftToken) : SoftToken × Except Err TokenBlock :=
  match advanceSession w t with
  | (t, some e) => (t, .error e)
  | (t, none) =>
    let (t, now) := rateLimit w t
    let hz := hzTime t now
    match randRead 2 w.rnd with
    | .error e => (t, .error (.wrapped "failed to generate random" e))
    | .ok rndBytes =>
      (t, .ok { UID := copyInto (List.replicate 6 0) t.PrivateID
                Counter := t.Counter
                Timestamp := hz
                Session := t.Session
                Random := uint16LE rndBytes
                CRC := 0 })

/-- The method `GenerateOTP`: the token after the call and the result pair. -/
def SoftToken.GenerateOTP (cipher : List Byte → List Byte → List Byte) (w : OTPWorld)
    (t : SoftToken) : SoftToken × StringResult :=
  match prepareBlock w t with
  | (t, .error e) => (t, ⟨[], some e⟩)
  | (t, .ok block) =>
    match (block.Generate cipher t.AESKey).2 with
    | ⟨_, some e⟩ => (t, ⟨[], some e⟩)
    | ⟨otp, none⟩ => (t, ⟨ModHexEncode t.PublicID ++ otp, none⟩)

/-- The token after a sequence of `GenerateOTP` calls, one for each world of the list. -/
def runOTPs (cipher : List Byte → List Byte → List Byte) :
    List OTPWorld → SoftToken → SoftToken
  | [], t => t
  | w :: ws, t => runOTPs cipher ws (t.GenerateOTP cipher w).1

/-- What one call of `New` observes of the outside world. -/
structure NewWorld where
  /-- The random source at the read into `t.PublicID[2:]`. -/
  publicID : Option (List Byte)
  /-- The random source at the read into `t.PrivateID`. -/
  privateID : Option (List Byte)
  /-- The random source at the read into `t.AESKey`. -/
  aesKey : Option (List Byte)
  /-- The reading `time.Now().Unix()`. -/
  now : Int
  /-- The random source at the read of `ponRandBytes`. -/
  ponRand : Option (List Byte)

/-- The function `New()`: the three random reads, the counters, the clock and the power-on
random value, in the order of the code. -/
def New (w : NewWorld) : Except Err SoftToken :=
  match randRead 4 w.publicID with
  | .error e => .error (.wrapped "failed to generate public ID" e)
  | .ok publicTail =>
    match randRead 6 w.privateID with
    | .error e => .error (.wrapped "failed to generate private ID" e)
    | .ok privateID =>
      match randRead 16 w.aesKey with
      | .error e => .error (.wrapped "failed to generate AES key" e)
      | .ok aesKey =>
        match randRead 4 w.ponRand with
        | .error e => .error (.wrapped "failed to generate ponrand" e)
        | .ok ponRandBytes =>
          .ok { PublicID := [0x22, 0x22] ++ publicTail
                PrivateID := privateID
                AESKey := aesKey
                Counter := 1
                Session := 1
                Created := w.now
                LastUse := w.now
                PonRand := uint32LE ponRandBytes &&& 0xfffffff0 }

/-- The function `NewWithOptions(publicID, privateID, aesKey, counter)`; a `nil` slice is `none`. -/
def NewWithOptions (w : NewWorld) (publicID privateID aesKey : Option (List Byte))
    (counter : Nat) : Except Err SoftToken :=
  match New w with
  | .error e => .error e
  | .ok t =>
    let t := match publicID with
      | some p => { t with PublicID := copyInto t.PublicID p }
      | none => t
    let t := match privateID with
      | some p => { t with PrivateID := copyInto t.PrivateID p }
      | none => t
    let t := match aesKey with
      | some k => { t with AESKey := copyInto t.AESKey k }
      | none => t
    .ok { t with Counter := (counter + 1) % 65536 }

/-- The session counter after a call of `GenerateOTP` that gets past its first step, as a
function of the session counter before: 1 after `0xff`, one more otherwise. -/
def nextSession (s : Nat) : Nat := if s = 0xff then 1 else (s + 1) % 256

/-- A token for the examples: six-byte identifiers, a sixteen-byte key, session 1. -/
def sampleToken : SoftToken :=
  { PublicID := [0x22, 0x22, 1, 2, 3, 4]
    PrivateID := [0xaa, 0xbb, 0xcc, 0xdd, 0xee, 0xff]
    AESKey := [0, 1, 2, 3, 4, 5, 6, 7, 8, 9, 10, 11, 12, 13, 14, 15]
    Counter := 1
    Session := 1
    Created := 1700000000
    LastUse := 1700000000
    PonRand := 0x12345670 }

/-- A world for the examples: the clock reads five seconds after `sampleToken` was made. -/
def sampleWorld : OTPWorld :=
  { ponRand := some [0x11, 0x22, 0x33, 0x44]
    now := 1700000005
    nowAfterSleep := 1700000006
    rnd := some [0x5a, 0xa5] }

/-- A stand-in for the block cipher in the examples: a bijection of the blocks that is not
AES. -/
def sampleCipher (_key block : List Byte) : List Byte := block.reverse

/-- A world for the examples of `New`: the random source delivers fixed bytes. -/
def sampleNewWorld : NewWorld :=
  { publicID := some [1, 2, 3, 4]
    privateID := some [0xaa, 0xbb, 0xcc, 0xdd, 0xee, 0xff]
    aesKey := some [0, 1, 2, 3, 4, 5, 6, 7, 8, 9, 10, 11, 12, 13, 14, 15]
    now := 1700000000
    ponRand := some [0x78, 0x56, 0x34, 0x12] }

/-! ## Library text functions behind `Save` and `Load` -/

/-- The digit loop of the verb `%d` in `fmt`: while `u >= 10` the last digit of `u` is put
in front of what is already written and `u` is divided by ten; the remaining digit comes
first. The first argument bounds the number of rounds of the loop. -/
def fmtDigits : Nat → Nat → List Byte → List Byte
  | 0, u, acc => toByte (48 + u % 10) :: acc
  | fuel + 1, u, acc =>
    if u ≥ 10 then fmtDigits fuel (u / 10) (toByte (48 + u % 10) :: acc)
    else toByte (48 + u) :: acc

/-- The verb `%d` on an unsigned integer of at most 64 bits (at most twenty digits). -/
def fmtUint (u : Nat) : List Byte := fmtDigits 20 u []

/-- The verb `%d` on an `int64`: a minus sign and the magnitude when negative. -/
def fmtInt (v : Int) : List Byte :=
  if v < 0 then 45 :: fmtUint (-v).toNat else fmtUint v.toNat

/-- The digit loop of `strconv.ParseUint` in base 10 with largest value `maxVal`: `n` is
the number read so far. A byte that is not a digit is a format error; a number that passes
`maxVal` or 64 bits is a range error. -/
def parseUintLoop (maxVal : Nat) : List Byte → Nat → Except Err Nat
  | [], n => .ok n
  | c :: cs, n =>
    if 48 ≤ c.val ∧ c.val ≤ 57 then
      if n ≥ 1844674407370955162 then .error .numRange
      else
        let n1 := (n * 10 + (c.val - 48)) % 18446744073709551616
        if n1 < n * 10 ∨ n1 > maxVal then .error .numRange
        else parseUintLoop maxVal cs n1
    else .error .numFormat

/-- The library function `strconv.ParseUint(s, 10, bitSize)`. -/
def ParseUint (s : List Byte) (bitSize : Nat) : Except Err Nat :=
  if s = [] then .error .numFormat else parseUintLoop (2 ^ bitSize - 1) s 0

/-- The library function `strconv.ParseInt(s, 10, 64)`: an optional sign, then
`ParseUint`, then the range check of a signed 64-bit value. -/
def ParseInt64 (s : List Byte) : Except Err Int :=
  match s with
  | [] => .error .numFormat
  | c :: rest =>
    let neg := decide (c = 45)
    let digits := if c = 43 ∨ c = 45 then rest else s
    match ParseUint digits 64 with
    | .error e => .error e
    | .ok un =>
      if ¬ neg ∧ un ≥ 9223372036854775808 then .error .numRange
      else if neg ∧ un > 9223372036854775808 then .error .numRange
      else if neg then .ok (wrapInt64 (-(wrapInt64 un))) else .ok (wrapInt64 un)

/-- The UTF-8 encodings of the code points for which `unicode.IsSpace` is true: tab to
carriage return, space, U+0085, U+00A0, U+1680, U+2000 to U+200A, U+2028, U+2029, U+202F,
U+205F and U+3000. -/
def spaceRunes : List (List Byte) :=
  [[9], [10], [11], [12], [13], [32], [0xc2, 0x85], [0xc2, 0xa0], [0xe1, 0x9a, 0x80],
   [0xe2, 0x80, 0x80], [0xe2, 0x80, 0x81], [0xe2, 0x80, 0x82], [0xe2, 0x80, 0x83],
   [0xe2, 0x80, 0x84], [0xe2, 0x80, 0x85], [0xe2, 0x80, 0x86], [0xe2, 0x80, 0x87],
   [0xe2, 0x80, 0x88], [0xe2, 0x80, 0x89], [0xe2, 0x80, 0x8a], [0xe2, 0x80, 0xa8],
   [0xe2, 0x80, 0xa9], [0xe2, 0x80, 0xaf], [0xe2, 0x81, 0x9f], [0xe3, 0x80, 0x80]]

/-- The string without the one space it starts with, `none` when it starts with none. -/
def stripSpace (runes : List (List Byte)) (s : List Byte) : Option (List Byte) :=
  (runes.find? (fun r => r.isPrefixOf s)).map (fun r => s.drop r.length)

/-- The string without the spaces it starts with; the first argument bounds their number. -/
def trimLeft (runes : List (List Byte)) : Nat → List Byte → List Byte
  | 0, s => s
  | fuel + 1, s =>
    match stripSpace runes s with
    | some rest => trimLeft runes fuel rest
    | none => s

/-- The library function `strings.TrimSpace`: the string without the white space, in the
sense of Unicode, at its two ends. The right end is trimmed by reading backwards. -/
def TrimSpace (s : List Byte) : List Byte :=
  let s1 := trimLeft spaceRunes s.length s
  (trimLeft (spaceRunes.map List.reverse) s1.length s1.reverse).reverse

/-- The library function `strings.SplitN(line, ":", 2)` when it returns two parts: what
stands before the first colon and what stands after it; `none` when the line has no colon. -/
def splitColon : List Byte → Option (List Byte × List Byte)
  | [] => none
  | c :: cs =>
    if c = 58 then some ([], cs)
    else
      match splitColon cs with
      | some (k, v) => some (c :: k, v)
      | none => none

/-- The lines that `bufio.ScanLines` cuts a text into, each without its newline: `cur` is
the line being read, last byte first. A last line without newline counts when not empty. -/
def scanLines : List Byte → List Byte → List (List Byte)
  | [], cur => if cur = [] then [] else [cur.reverse]
  | c :: cs, cur => if c = 10 then cur.reverse :: scanLines cs [] else scanLines cs (c :: cur)

/-- The helper `dropCR` of `bufio.ScanLines`: a final carriage return is dropped. -/
def dropCR (line : List Byte) : List Byte :=
  if line.getLast? = some 13 then line.dropLast else line

/-! ## internal/token/token.go: `Save` and `Load` -/

/-- One `fmt.Fprintf(file, "%s: %s\n", field, value)` (or `%d`, the value formatted). -/
def fieldLine (field : String) (value : List Byte) : List Byte :=
  str field ++ str ": " ++ value ++ [10]

/-- The method `Save`: the text written to the file by the eight `Fprintf` calls. -/
def SoftToken.Save (t : SoftToken) : List Byte :=
  fieldLine "public_id" (ModHexEncode t.PublicID)
    ++ fieldLine "private_id" (HexEncode t.PrivateID)
    ++ fieldLine "aes_key" (HexEncode t.AESKey)
    ++ fieldLine "counter" (fmtUint t.Counter)
    ++ fieldLine "session" (fmtUint t.Session)
    ++ fieldLine "created" (fmtInt t.Created)
    ++ fieldLine "lastuse" (fmtInt t.LastUse)
    ++ fieldLine "ponrand" (fmtUint t.PonRand)

/-- The `switch key` of the loop of `Load`: the token after a line with this key and
value, or the error with which `Load` returns. `now` is `time.Now().Unix()`, read at a
`lastuse` line; a key that is no field name changes nothing. -/
def loadField (uni : List Byte → List Byte) (now : Int) (t : SoftToken)
    (key value : List Byte) : Except Err SoftToken :=
  if key = str "public_id" then
    match ModHexDecode uni value with
    | .error e => .error (.wrapped "invalid public_id" e)
    | .ok decoded => .ok { t with PublicID := copyInto t.PublicID decoded }
  else if key = str "private_id" then
    match HexDecode uni value with
    | .error e => .error (.wrapped "invalid private_id" e)
    | .ok decoded => .ok { t with PrivateID := copyInto t.PrivateID decoded }
  else if key = str "aes_key" then
    match HexDecode uni value with
    | .error e => .error (.wrapped "invalid aes_key" e)
    | .ok decoded => .ok { t with AESKey := copyInto t.AESKey decoded }
  else if key = str "counter" then
    match ParseUint value 16 with
    | .error e => .error (.wrapped "invalid counter" e)
    | .ok v => .ok { t with Counter := v % 65536 }
  else if key = str "session" then
    match ParseUint value 8 with
    | .error e => .error (.wrapped "invalid session" e)
    | .ok v => .ok { t with Session := v % 256 }
  else if key = str "created" then
    match ParseInt64 value with
    | .error e => .error (.wrapped "invalid created" e)
    | .ok v => .ok { t with Created := v }
  else if key = str "lastuse" then
    match ParseInt64 value with
    | .error e => .error (.wrapped "invalid lastuse" e)
    | .ok v => if v > now then .error .timeTravel else .ok { t with LastUse := v }
  else if key = str "ponrand" then
    match ParseUint value 32 with
    | .error e => .error (.wrapped "invalid ponrand" e)
    | .ok v => .ok { t with PonRand := v % 4294967296 }
  else .ok t

/-- The body of the loop of `Load` on one line of the record: a line without colon is
skipped, any other is cut at its first colon into a key and a value, both trimmed. -/
def loadLine (uni : List Byte → List Byte) (now : Int) (t : SoftToken) (line : List Byte) :
    Except Err SoftToken :=
  match splitColon line with
  | none => .ok t
  | some (k, v) => loadField uni now t (TrimSpace k) (TrimSpace v)

/-- The loop of `Load` over the lines the scanner delivers, from line number `i` on.
`clock i` is the reading of the clock while line `i` is handled. A line of 65536 bytes or
more does not fit the buffer of the scanner: the loop ends there and `scanner.Err()` is
`bufio.ErrTooLong`. -/
def loadLines (uni : List Byte → List Byte) (clock : Nat → Int) :
    Nat → List (List Byte) → SoftToken → Except Err SoftToken
  | _, [], t => .ok t
  | i, raw :: rest, t =>
    if raw.length ≥ 65536 then .error .lineTooLong
    else
      match loadLine uni (clock i) t (dropCR raw) with
      | .error e => .error e
      | .ok t => loadLines uni clock (i + 1) rest t

/-- The value `&SoftToken{}`. -/
def zeroToken : SoftToken :=
  { PublicID := List.replicate 6 0
    PrivateID := List.replicate 6 0
    AESKey := List.replicate 16 0
    Counter := 0
    Session := 0
    Created := 0
    LastUse := 0
    PonRand := 0 }

/-- The function `Load`, given the content `text` of the file it opened (the failure of
`os.Open` and read errors are left out). -/
def Load (uni : List Byte → List Byte) (clock : Nat → Int) (text : List Byte) :
    Except Err SoftToken :=
  loadLines uni clock 0 (scanLines text []) zeroToken

/-- The ranges of the fields of a `SoftToken`: array lengths and integer widths. -/
def SoftToken.WF (t : SoftToken) : Prop :=
  t.PublicID.length = 6 ∧ t.PrivateID.length = 6 ∧ t.AESKey.length = 16
    ∧ t.Counter < 65536 ∧ t.Session < 256
    ∧ -9223372036854775808 ≤ t.Created ∧ t.Created < 9223372036854775808
    ∧ -9223372036854775808 ≤ t.LastUse ∧ t.LastUse < 9223372036854775808
    ∧ t.PonRand < 4294967296

/-- The bytes that the values written by `Save` are made of: digits, lower-case letters
and the minus sign. -/
def plain (c : Byte) : Prop :=
  (48 ≤ c.val ∧ c.val ≤ 57) ∨ (97 ≤ c.val ∧ c.val ≤ 122) ∨ c.val = 45

instance : DecidablePred plain := fun c => by
  unfold plain
  infer_instance

/-- No space of the list starts with the byte `c`. -/
def noSpaceStarts (runes : List (List Byte)) (c : Byte) : Bool :=
  runes.all (fun r => match r with
    | [] => false
    | a :: _ => a != c)

/-- A value as `Save` writes it: not empty, short, made of plain bytes. -/
def GoodValue (v : List Byte) : Prop :=
  v ≠ [] ∧ (∀ c ∈ v, plain c) ∧ v.length ≤ 40

/-- A field name as `Save` writes it: no colon, no newline, nothing to trim, short. -/
def GoodKey (k : List Byte) : Prop :=
  (58 : Byte) ∉ k ∧ (10 : Byte) ∉ k ∧ TrimSpace k = k ∧ k.length ≤ 20

instance : DecidablePred GoodKey := fun k => by
  unfold GoodKey
  infer_instance

instance : DecidablePred SoftToken.WF := fun t => by
  unfold SoftToken.WF
  infer_instance

/-- The value of a well-formed `lastuse` line, as the scanner delivers the line: the line
has a colon, what stands before the first colon is, once trimmed, the word `lastuse`, and
what stands after it is, once trimmed, a decimal `int64`. `none` for any other line. -/
def lastUseValue (raw : List Byte) : Option Int :=
  match splitColon (dropCR raw) with
  | none => none
  | some (k, val) =>
    if TrimSpace k = str "lastuse" then
      match ParseInt64 (TrimSpace val) with
      | .ok v => some v
      | .error _ => none
    else none

/-- A record for the examples whose `lastuse` is five seconds after `sampleClock`. -/
def futureRecord : List Byte := str "counter: 5\nlastuse: 1700000010\nsession: 3\n"

/-- A record for the examples whose `lastuse` is the reading of `sampleClock`. -/
def presentRecord : List Byte := str "counter: 5\nlastuse: 1700000005\nsession: 3\n"

/-- A clock for the examples of `Load`: the same second at every line. -/
def sampleClock (_line : Nat) : Int := 1700000005

/-! ## Notions of the specification of the text codecs -/

/-- One of the sixteen modhex symbols, in either letter case. -/
def modHexSymbol (c : Byte) : Prop :=
  c ∈ str "cbdefghijklnrtuv" ∨ c ∈ str "CBDEFGHIJKLNRTUV"

instance : DecidablePred modHexSymbol := fun c => by
  unfold modHexSymbol
  infer_instance

/-- One of the characters `0-9`, `a-f`, `A-F`. -/
def hexSymbol (c : Byte) : Prop :=
  (48 ≤ c.val ∧ c.val ≤ 57) ∨ (97 ≤ c.val ∧ c.val ≤ 102) ∨ (65 ≤ c.val ∧ c.val ≤ 70)

instance : DecidablePred hexSymbol := fun c => by
  unfold hexSymbol
  infer_instance

/-- ASCII upper-casing of one byte: the letters `a` to `z` become `A` to `Z`. -/
def upperByte (c : Byte) : Byte :=
  if 97 ≤ c.val ∧ c.val ≤ 122 then toByte (c.val - 32) else c

/-- A stand-in for the Unicode branch `strings.Map(unicode.ToLower, s)` of
`strings.ToLower`. It is what the library computes on the strings made of ASCII bytes, of
Kelvin signs (U+212A, bytes `e2 84 aa`, whose lower case is `k`: 0x212A - 8383 = 0x6B) and
of capital letters I with dot above (U+0130, bytes `c4 b0`, whose lower case is `i`:
0x130 - 199 = 0x69). Other strings are outside what it models. -/
def lowerSpecial : List Byte → List Byte
  | 0xe2 :: 0x84 :: 0xaa :: rest => 107 :: lowerSpecial rest
  | 0xc4 :: 0xb0 :: rest => 105 :: lowerSpecial rest
  | c :: rest => lowerByte c :: lowerSpecial rest
  | [] => []

/-- The ranges of the fields of a `TokenBlock`: array length and integer widths. -/
def TokenBlock.WF (b : TokenBlock) : Prop :=
  b.UID.length = 6 ∧ b.Counter < 65536 ∧ b.Timestamp < 4294967296 ∧ b.Session < 256
    ∧ b.Random < 65536 ∧ b.CRC < 65536

instance : DecidablePred TokenBlock.WF := fun b => by
  unfold TokenBlock.WF
  infer_instance

/-- A block for the examples. -/
def sampleBlock : TokenBlock :=
  { UID := [0xaa, 0xbb, 0xcc, 0xdd, 0xee, 0xff]
    Counter := 0x0102
    Timestamp := 0x030405
    Session := 0x06
    Random := 0x0708
    CRC := 0x090a }

/-! ## The registration text and the validator side of the block -/

/-- The method `RegistrationInfo`: `fmt.Sprintf("%s, %s, %s", ...)` of the public ID in
modhex, the private ID in hex and the key in hex. -/
def SoftToken.RegistrationInfo (t : SoftToken) : List Byte :=
  ModHexEncode t.PublicID ++ str ", " ++ HexEncode t.PrivateID ++ str ", "
    ++ HexEncode t.AESKey

/-- The Go slice expression `data[lo:hi]`. -/
def slice (data : List Byte) (lo hi : Nat) : List Byte := (data.drop lo).take (hi - lo)

/-- The method `UnmarshalBinary(data)`: the receiver after the call, or `ErrInvalidLength`
when `data` is not sixteen bytes long. -/
def TokenBlock.UnmarshalBinary (t : TokenBlock) (data : List Byte) : Except Err TokenBlock :=
  if data.length ≠ 16 then .error .invalidLength
  else
    .ok { UID := copyInto t.UID (slice data 0 6)
          Counter := uint16LE (slice data 6 8)
          Timestamp := uint16LE (slice data 8 10) ||| ((data.getD 10 0).val <<< 16)
          Session := (data.getD 11 0).val
          Random := uint16LE (slice data 12 14)
          CRC := uint16LE (slice data 14 16) }

/-- The function `AESDecrypt(key, ciphertext)`. The block decryption of `crypto/aes` is the
parameter `decipher`; what it computes is written into the 16-byte buffer `plaintext`. -/
def AESDecrypt (decipher : List Byte → List Byte → List Byte) (key ciphertext : List Byte) :
    Except Err (List Byte) :=
  if key.length ≠ 16 ∨ ciphertext.length ≠ 16 then .error (.keySize key.length)
  else
    match aesNewCipher key with
    | .error e => .error e
    | .ok _ => .ok (copyInto (List.replicate 16 0) (decipher key ciphertext))

/-- The value `&TokenBlock{}`. -/
def zeroBlock : TokenBlock :=
  { UID := List.replicate 6 0, Counter := 0, Timestamp := 0, Session := 0, Random := 0,
    CRC := 0 }

/-- A world for the examples in which every read of the random source fails. -/
def noRandomWorld : OTPWorld := { sampleWorld with ponRand := none, rnd := none }

/-- A world for the examples whose clock reads one second before the last use of
`sampleToken`. -/
def earlyWorld : OTPWorld := { sampleWorld with now := 1699999999 }

/-- A token for the examples that has been used eight times in its last second: the low
four bits of `PonRand` are 7. -/
def busyToken : SoftToken := { sampleToken with PonRand := 0x12345677 }

/-- A world for the examples: the clock reads the second of the last use of `busyToken`,
and the next second after the sleep. -/
def sameSecondWorld : OTPWorld :=
  { sampleWorld with now := 1700000000, nowAfterSleep := 1700000001 }

/-- A world for the examples: the clock reads the second after the last use of
`busyToken`. -/
def nextSecondWorld : OTPWorld :=
  { sampleWorld with now := 1700000001, nowAfterSleep := 1700000002 }

/-- The inverse of `sampleCipher`, a stand-in for the block decryption in the examples. -/
def sampleDecipher (_key block : List Byte) : List Byte := block.reverse

/-! ## Facts about the checksum -/

theorem crcShift_lt (s : Nat) (hs : s < 65536) : crcShift s < 65536 := by
  unfold crcShift
  have h1 : s >>> 1 < 2 ^ 16 := by
    rw [Nat.shiftRight_eq_div_pow]
    omega
  split
  · exact Nat.xor_lt_two_pow h1 (by norm_num)
  · simpa using h1

theorem crcShift_iter_lt (n s : Nat) (hs : s < 65536) : crcShift^[n] s < 65536 := by
  induction n generalizing s with
  | zero => simpa using hs
  | succ k ih =>
    rw [Function.iterate_succ_apply]
    exact ih _ (crcShift_lt s hs)

theorem crcByte_lt (s : Nat) (b : Byte) (hs : s < 65536) : crcByte s b < 65536 := by
  unfold crcByte
  apply crcShift_iter_lt
  have hb : b.val < 2 ^ 16 := by have := b.isLt; omega
  exact Nat.xor_lt_two_pow (by simpa using hs) hb

theorem foldl_crcByte_lt (data : List Byte) (s : Nat) (hs : s < 65536) :
    data.foldl crcByte s < 65536 := by
  induction data generalizing s with
  | nil => simpa using hs
  | cons b rest ih => exact ih _ (crcByte_lt s b hs)

theorem CRC16_lt (data : List Byte) : CRC16 data < 65536 :=
  foldl_crcByte_lt data 0xffff (by decide)

/-- The high byte of the complement of a 16-bit value is the complement of its high byte. -/
theorem not16_high (s : Nat) (hs : s < 65536) :
    (not16 s >>> 8) % 256 = (s >>> 8) ^^^ 255 := by
  unfold not16
  apply Nat.eq_of_testBit_eq
  intro j
  have e : (256 : Nat) = 2 ^ 8 := by norm_num
  have e1 : (0xffff : Nat) = 2 ^ 16 - 1 := by norm_num
  have e2 : (255 : Nat) = 2 ^ 8 - 1 := by norm_num
  rw [e, Nat.testBit_mod_two_pow, Nat.testBit_shiftRight, Nat.testBit_xor, Nat.testBit_xor,
    Nat.testBit_shiftRight, e1, e2, Nat.testBit_two_pow_sub_one, Nat.testBit_two_pow_sub_one]
  by_cases hj : j < 8
  · have : 8 + j < 16 := by omega
    simp [hj, this]
  · have h2 : s.testBit (8 + j) = false := by
      apply Nat.testBit_lt_two_pow
      calc s < 2 ^ 16 := by omega
        _ ≤ 2 ^ (8 + j) := Nat.pow_le_pow_right (by norm_num) (by omega)
    simp [hj, h2]

/-- Folding the low byte of the complement into a register sets its low byte to `0xff`. -/
theorem xor_not16_low (s : Nat) :
    s ^^^ ((not16 s &&& 0xff) % 256) = (s >>> 8) * 256 + 255 := by
  unfold not16
  apply Nat.eq_of_testBit_eq
  intro j
  have e : (256 : Nat) = 2 ^ 8 := by norm_num
  have e1 : (0xffff : Nat) = 2 ^ 16 - 1 := by norm_num
  have e2 : (255 : Nat) = 2 ^ 8 - 1 := by norm_num
  have hlt : 2 ^ 8 - 1 < 2 ^ 8 := by norm_num
  rw [e, Nat.mul_comm, e2, Nat.testBit_mul_pow_two_add _ hlt, Nat.testBit_xor,
    Nat.testBit_mod_two_pow, Nat.testBit_and, Nat.testBit_xor, e1,
    Nat.testBit_two_pow_sub_one, Nat.testBit_two_pow_sub_one,
    Nat.testBit_shiftRight]
  by_cases hj : j < 8
  · have : j < 16 := by omega
    simp [hj, this]
  · have : 8 + (j - 8) = j := by omega
    simp [hj, this]

set_option maxRecDepth 100000 in
/-- Whatever the high byte of the register, absorbing the two complement bytes ends in the
residual: the check over the 256 possible high bytes. -/
theorem residual_of_high : ∀ h < 256,
    crcShift^[8] (crcShift^[8] (h * 256 + 255) ^^^ (h ^^^ 255)) = 0xf0b8 := by
  decide

/-- Absorbing the little-endian complement of a 16-bit register value leaves the residual. -/
theorem crcByte_residual (s : Nat) (hs : s < 65536) :
    crcByte (crcByte s (toByte (not16 s &&& 0xff))) (toByte (not16 s >>> 8)) = 0xf0b8 := by
  have hh : s >>> 8 < 256 := by
    rw [Nat.shiftRight_eq_div_pow]
    omega
  simp only [crcByte, toByte]
  rw [xor_not16_low, not16_high s hs]
  exact residual_of_high _ hh

/-- Appending the stamped complement to any data gives the residual. -/
theorem CRC16_append_not16 (data : List Byte) :
    CRC16 (data ++ [toByte (not16 (CRC16 data) &&& 0xff), toByte (not16 (CRC16 data) >>> 8)])
      = 0xf0b8 := by
  have h := crcByte_residual (CRC16 data) (CRC16_lt data)
  simpa [CRC16, List.foldl_append] using h

/-- C1: for every byte sequence `data`, the checksum of `data` followed by the two
little-endian bytes of the complemented checksum of `data` is the residual `0xF0B8`. -/
theorem C1_crc16_residual (data : List Byte) :
    CRC16 (data ++ [toByte (not16 (CRC16 data) &&& 0xff), toByte (not16 (CRC16 data) >>> 8)])
      = CRCOKResidual :=
  CRC16_append_not16 data


/-! ## Facts about the text codecs -/

/-- The two nibbles of a byte are below 16. -/
theorem nibbles_lt (b : Byte) : b.val >>> 4 < 16 ∧ b.val &&& 0x0f < 16 := by
  constructor
  · have := b.isLt
    rw [Nat.shiftRight_eq_div_pow]
    omega
  · exact Nat.lt_of_le_of_lt Nat.and_le_right (by decide)

set_option maxRecDepth 100000 in
/-- A byte is rebuilt from its two nibbles by `(high << 4) | low`. -/
theorem nibbles_join : ∀ b : Byte,
    toByte ((((toByte (b.val >>> 4)).val <<< 4) % 256) ||| (toByte (b.val &&& 0x0f)).val) = b := by
  decide

/-- Each modhex symbol is a lower-case ASCII byte that the decode table maps to its index. -/
theorem modHex_symbol : ∀ i < 16,
    modHexDecode (modHexAlphabet.getD i 0) = some (toByte i)
      ∧ (modHexAlphabet.getD i 0).val < 0x80
      ∧ lowerByte (modHexAlphabet.getD i 0) = modHexAlphabet.getD i 0 := by
  decide

/-- Each hex digit is a lower-case ASCII byte whose value is its index. -/
theorem hex_symbol : ∀ i < 16,
    hexNibble (hexAlphabet.getD i 0) = some (toByte i)
      ∧ (hexAlphabet.getD i 0).val < 0x80
      ∧ lowerByte (hexAlphabet.getD i 0) = hexAlphabet.getD i 0 := by
  decide

/-- A string whose bytes are all lower-case ASCII is left alone by `ToLower`. -/
theorem ToLower_of_lower (uni : List Byte → List Byte) (s : List Byte)
    (h : ∀ c ∈ s, c.val < 0x80 ∧ lowerByte c = c) : ToLower uni s = s := by
  unfold ToLower
  have hall : s.all (fun c => decide (c.val < 0x80)) = true := by
    rw [List.all_eq_true]
    intro c hc
    simpa using (h c hc).1
  rw [if_pos hall]
  calc s.map lowerByte = s.map id := List.map_congr_left (fun c hc => (h c hc).2)
    _ = s := List.map_id s

theorem ModHexEncode_lower (data : List Byte) :
    ∀ c ∈ ModHexEncode data, c.val < 0x80 ∧ lowerByte c = c := by
  induction data with
  | nil => intro c hc; simp [ModHexEncode] at hc
  | cons b rest ih =>
    intro c hc
    simp only [ModHexEncode, List.mem_cons] at hc
    rcases hc with h | h | h
    · rw [h]; exact (modHex_symbol _ (nibbles_lt b).1).2
    · rw [h]; exact (modHex_symbol _ (nibbles_lt b).2).2
    · exact ih c h

theorem HexEncode_lower (data : List Byte) :
    ∀ c ∈ HexEncode data, c.val < 0x80 ∧ lowerByte c = c := by
  induction data with
  | nil => intro c hc; simp [HexEncode] at hc
  | cons b rest ih =>
    intro c hc
    simp only [HexEncode, List.mem_cons] at hc
    rcases hc with h | h | h
    · rw [h]; exact (hex_symbol _ (nibbles_lt b).1).2
    · rw [h]; exact (hex_symbol _ (nibbles_lt b).2).2
    · exact ih c h

theorem ModHexEncode_length (data : List Byte) :
    (ModHexEncode data).length = 2 * data.length := by
  induction data with
  | nil => rfl
  | cons b rest ih => simp only [ModHexEncode, List.length_cons, ih]; omega

theorem HexEncode_length (data : List Byte) : (HexEncode data).length = 2 * data.length := by
  induction data with
  | nil => rfl
  | cons b rest ih => simp only [HexEncode, List.length_cons, ih]; omega

theorem modHexDecodePairs_encode (data : List Byte) :
    modHexDecodePairs (ModHexEncode data) = .ok data := by
  induction data with
  | nil => rfl
  | cons b rest ih =>
    simp only [ModHexEncode, modHexDecodePairs]
    rw [(modHex_symbol _ (nibbles_lt b).1).1, (modHex_symbol _ (nibbles_lt b).2).1]
    simp only [ih, nibbles_join]

theorem hexDecodePairs_encode (data : List Byte) :
    hexDecodePairs (HexEncode data) = .ok data := by
  induction data with
  | nil => rfl
  | cons b rest ih =>
    simp only [HexEncode, hexDecodePairs]
    rw [(hex_symbol _ (nibbles_lt b).1).1, (hex_symbol _ (nibbles_lt b).2).1]
    simp only [ih, nibbles_join]

/-- Decoding what `ModHexEncode` produced gives the bytes back. -/
theorem ModHexDecode_encode (uni : List Byte → List Byte) (data : List Byte) :
    ModHexDecode uni (ModHexEncode data) = .ok data := by
  unfold ModHexDecode
  simp only [ToLower_of_lower uni _ (ModHexEncode_lower data), ModHexEncode_length,
    modHexDecodePairs_encode]
  rw [if_neg]
  simp

/-- Decoding what `HexEncode` produced gives the bytes back. -/
theorem HexDecode_encode (uni : List Byte → List Byte) (data : List Byte) :
    HexDecode uni (HexEncode data) = .ok data := by
  unfold HexDecode
  simp only [ToLower_of_lower uni _ (HexEncode_lower data), HexEncode_length,
    hexDecodePairs_encode]
  rw [if_neg]
  simp

/-- C2: for every byte sequence `b`, `ModHexDecode(ModHexEncode(b))` succeeds and returns
exactly `b` (whatever the Unicode tables behind `strings.ToLower` are). -/
theorem C2_modhex_roundtrip (uni : List Byte → List Byte) (b : List Byte) :
    ModHexDecode uni (ModHexEncode b) = .ok b :=
  ModHexDecode_encode uni b

/-- C3: for every byte sequence `b`, `HexDecode(HexEncode(b))` succeeds and returns exactly
`b` (whatever the Unicode tables behind `strings.ToLower` are). -/
theorem C3_hex_roundtrip (uni : List Byte → List Byte) (b : List Byte) :
    HexDecode uni (HexEncode b) = .ok b :=
  HexDecode_encode uni b

/-! ## Facts about the block codec -/

theorem copyInto_length (dst src : List Byte) : (copyInto dst src).length = dst.length := by
  simp only [copyInto, List.length_append, List.length_take, List.length_drop]
  omega

theorem toByte_and_ff (c : Nat) : toByte (c &&& 0xff) = toByte c := by
  have h : c &&& 0xff = c % 2 ^ 8 := Nat.and_pow_two_sub_one_eq_mod c 8
  apply Fin.ext
  simp only [toByte, h]
  omega

/-- The first fourteen marshalled bytes do not depend on the `CRC` field, and the last two
are that field in little-endian order. -/
theorem MarshalBinary_split (t : TokenBlock) :
    t.MarshalBinary = t.MarshalBinary.take 14 ++ putUint16 t.CRC
      ∧ (t.MarshalBinary.take 14).length = 14 := by
  have h6 : (copyInto (List.replicate 6 0) t.UID).length = 6 := by
    rw [copyInto_length, List.length_replicate]
  have hlen : (copyInto (List.replicate 6 0) t.UID ++ putUint16 t.Counter
      ++ putUint16 ((t.Timestamp &&& 0xffff) % 65536) ++ [toByte ((t.Timestamp >>> 16) &&& 0xff)]
      ++ [toByte t.Session] ++ putUint16 t.Random).length = 14 := by
    simp only [List.length_append, h6, putUint16, List.length_cons, List.length_nil]
  unfold TokenBlock.MarshalBinary
  rw [List.take_left' hlen]
  exact ⟨rfl, hlen⟩

theorem MarshalBinary_take_ComputeCRC (t : TokenBlock) :
    t.ComputeCRC.MarshalBinary.take 14 = t.MarshalBinary.take 14 := by
  have h6 : (copyInto (List.replicate 6 0) t.UID).length = 6 := by
    rw [copyInto_length, List.length_replicate]
  have hlen : (copyInto (List.replicate 6 0) t.UID ++ putUint16 t.Counter
      ++ putUint16 ((t.Timestamp &&& 0xffff) % 65536) ++ [toByte ((t.Timestamp >>> 16) &&& 0xff)]
      ++ [toByte t.Session] ++ putUint16 t.Random).length = 14 := by
    simp only [List.length_append, h6, putUint16, List.length_cons, List.length_nil]
  simp only [TokenBlock.MarshalBinary, TokenBlock.ComputeCRC]
  rw [List.take_left' hlen, List.take_left' hlen]

/-- The marshalled block has the residual checksum once `ComputeCRC` has run. -/
theorem CRC16_MarshalBinary_ComputeCRC (t : TokenBlock) :
    CRC16 t.ComputeCRC.MarshalBinary = 0xf0b8 := by
  rw [(MarshalBinary_split t.ComputeCRC).1, MarshalBinary_take_ComputeCRC]
  have h := CRC16_append_not16 (t.MarshalBinary.take 14)
  rw [toByte_and_ff] at h
  exact h

/-- C4: for every block, after `ComputeCRC` the stored `CRC` is the complement of the
checksum of bytes 0..13 of the marshalled block (taken before or after the call), every
other field is unchanged, and the checksum of all sixteen marshalled bytes is `0xF0B8`. -/
theorem C4_computeCRC (b : TokenBlock) :
    b.ComputeCRC.CRC = not16 (CRC16 (b.MarshalBinary.take 14))
      ∧ b.ComputeCRC.CRC = not16 (CRC16 (b.ComputeCRC.MarshalBinary.take 14))
      ∧ b.ComputeCRC.UID = b.UID ∧ b.ComputeCRC.Counter = b.Counter
      ∧ b.ComputeCRC.Timestamp = b.Timestamp ∧ b.ComputeCRC.Session = b.Session
      ∧ b.ComputeCRC.Random = b.Random
      ∧ b.ComputeCRC.MarshalBinary.length = 16
      ∧ CRC16 b.ComputeCRC.MarshalBinary = CRCOKResidual := by
  refine ⟨rfl, ?_, rfl, rfl, rfl, rfl, rfl, ?_, CRC16_MarshalBinary_ComputeCRC b⟩
  · rw [MarshalBinary_take_ComputeCRC]
    rfl
  · rw [(MarshalBinary_split b.ComputeCRC).1, List.length_append,
      (MarshalBinary_split b.ComputeCRC).2]
    rfl

/-! ## Facts about OTP generation -/

theorem advanceSession_ok (w : OTPWorld) (t t1 : SoftToken)
    (h : advanceSession w t = (t1, none)) :
    t1.Session = nextSession t.Session ∧ t1.PublicID = t.PublicID
      ∧ t1.PrivateID = t.PrivateID ∧ t1.AESKey = t.AESKey ∧ t1.Created = t.Created
      ∧ t1.LastUse = t.LastUse := by
  unfold advanceSession at h
  unfold nextSession
  split at h
  · rename_i hs
    split at h
    · simp at h
    · cases hr : randRead 4 w.ponRand with
      | error e => simp [hr] at h
      | ok bytes =>
        simp only [hr, Prod.mk.injEq, and_true] at h
        subst h
        simp [hs]
  · rename_i hs
    simp only [Prod.mk.injEq, and_true] at h
    subst h
    simp [hs]

theorem rateLimit_frame (w : OTPWorld) (t : SoftToken) :
    (rateLimit w t).1.Session = t.Session ∧ (rateLimit w t).1.PublicID = t.PublicID
      ∧ (rateLimit w t).1.PrivateID = t.PrivateID ∧ (rateLimit w t).1.AESKey = t.AESKey
      ∧ (rateLimit w t).1.Created = t.Created ∧ (rateLimit w t).1.Counter = t.Counter := by
  unfold rateLimit
  split
  · split <;> simp
  · simp

/-- What a call that builds its block has done: the first step succeeded on `t` giving
`t1`, the token after the call is `t1` after rate limiting, and the block is made of it. -/
theorem prepareBlock_ok (w : OTPWorld) (t t2 : SoftToken) (block : TokenBlock)
    (h : prepareBlock w t = (t2, .ok block)) :
    ∃ t1 rndBytes, advanceSession w t = (t1, none) ∧ t2 = (rateLimit w t1).1
      ∧ randRead 2 w.rnd = .ok rndBytes
      ∧ block = { UID := copyInto (List.replicate 6 0) t2.PrivateID
                  Counter := t2.Counter
                  Timestamp := hzTime t2 (rateLimit w t1).2
                  Session := t2.Session
                  Random := uint16LE rndBytes
                  CRC := 0 } := by
  unfold prepareBlock at h
  rcases ha : advanceSession w t with ⟨t1, e⟩
  rw [ha] at h
  cases e with
  | some e => simp at h
  | none =>
    simp only at h
    cases hr : randRead 2 w.rnd with
    | error e => simp [hr] at h
    | ok rndBytes =>
      simp only [hr, Prod.mk.injEq, Except.ok.injEq] at h
      exact ⟨t1, rndBytes, rfl, h.1.symm, rfl, by rw [← h.2, ← h.1]⟩

/-- What a successful call has done: it built a block, encrypted the stamped block under
the key of the token and returned the public ID and the ciphertext in modhex. -/
theorem GenerateOTP_ok (cipher : List Byte → List Byte → List Byte) (w : OTPWorld)
    (t : SoftToken) (h : (t.GenerateOTP cipher w).2.err = none) :
    ∃ block ct, prepareBlock w t = ((t.GenerateOTP cipher w).1, .ok block)
      ∧ AESEncrypt cipher (t.GenerateOTP cipher w).1.AESKey block.ComputeCRC.MarshalBinary
          = .ok ct
      ∧ (t.GenerateOTP cipher w).2.text
          = ModHexEncode (t.GenerateOTP cipher w).1.PublicID ++ ModHexEncode ct := by
  unfold SoftToken.GenerateOTP at h ⊢
  rcases hp : prepareBlock w t with ⟨t2, res⟩
  rw [hp] at h
  cases res with
  | error e => simp at h
  | ok block =>
    simp only [TokenBlock.Generate] at h ⊢
    cases ha : AESEncrypt cipher t2.AESKey block.ComputeCRC.MarshalBinary with
    | error e => simp [ha] at h
    | ok ct => exact ⟨block, ct, rfl, ha, by simp [ha]⟩

theorem ModHexEncode_injective (a b : List Byte) (h : ModHexEncode a = ModHexEncode b) :
    a = b := by
  have ha := ModHexDecode_encode id a
  rw [h, ModHexDecode_encode id b] at ha
  exact (Except.ok.inj ha).symm

/-- Byte 11 of the marshalled block is the session counter. -/
theorem MarshalBinary_session (t : TokenBlock) :
    t.MarshalBinary[11]? = some (toByte t.Session) := by
  have h6 : (copyInto (List.replicate 6 0) t.UID).length = 6 := by
    rw [copyInto_length, List.length_replicate]
  unfold TokenBlock.MarshalBinary
  generalize copyInto (List.replicate 6 0) t.UID = uid at h6
  match uid, h6 with
  | [a, b, c, d, e, f], _ => simp [putUint16]

theorem MarshalBinary_length (t : TokenBlock) : t.MarshalBinary.length = 16 := by
  rw [(MarshalBinary_split t).1, List.length_append, (MarshalBinary_split t).2]
  rfl

/-- A successful `AESEncrypt` with a cipher that returns sixteen bytes returns what the
cipher computed. -/
theorem AESEncrypt_ok (cipher : List Byte → List Byte → List Byte) (key pt ct : List Byte)
    (hlen : (cipher key pt).length = 16) (h : AESEncrypt cipher key pt = .ok ct) :
    ct = cipher key pt := by
  unfold AESEncrypt at h
  split at h
  · simp at h
  · split at h
    · simp at h
    · simp only [Except.ok.injEq] at h
      rw [← h, copyInto, List.length_replicate, ← hlen, List.take_length]
      simp [hlen]

set_option maxRecDepth 100000 in
theorem nextSession_byte_ne : ∀ a < 256, toByte (nextSession a) ≠ toByte a := by
  decide

theorem nextSession_lt (s : Nat) : nextSession s < 256 := by
  unfold nextSession
  split
  · decide
  · exact Nat.mod_lt _ (by decide)

/-- The session byte of the block of a successful call, and what the call leaves alone. -/
theorem GenerateOTP_session (cipher : List Byte → List Byte → List Byte) (w : OTPWorld)
    (t : SoftToken) (block : TokenBlock)
    (hp : prepareBlock w t = ((t.GenerateOTP cipher w).1, .ok block)) :
    block.Session = nextSession t.Session
      ∧ (t.GenerateOTP cipher w).1.Session = nextSession t.Session
      ∧ (t.GenerateOTP cipher w).1.PublicID = t.PublicID
      ∧ (t.GenerateOTP cipher w).1.AESKey = t.AESKey := by
  obtain ⟨t1, rndBytes, ha, ht2, -, hb⟩ := prepareBlock_ok w t _ block hp
  have h1 := advanceSession_ok w t t1 ha
  have h2 := rateLimit_frame w t1
  rw [← ht2] at h2
  refine ⟨?_, ?_, ?_, ?_⟩
  · rw [hb]
    simp only
    rw [h2.1, h1.1]
  · rw [h2.1, h1.1]
  · rw [h2.2.1, h1.2.1]
  · rw [h2.2.2.2.1, h1.2.2.2.1]

/-- C5: if two consecutive `GenerateOTP` calls on one token both succeed, the two OTP
strings differ, for every token state, clock and random draws, the block cipher under the
key of the token being injective on 16-byte blocks (and returning 16-byte blocks). -/
theorem C5_consecutive_otps_differ (cipher : List Byte → List Byte → List Byte)
    (w1 w2 : OTPWorld) (t : SoftToken)
    (hlen : ∀ p, p.length = 16 → (cipher t.AESKey p).length = 16)
    (hinj : ∀ p q, p.length = 16 → q.length = 16 →
      cipher t.AESKey p = cipher t.AESKey q → p = q)
    (h1 : (t.GenerateOTP cipher w1).2.err = none)
    (h2 : ((t.GenerateOTP cipher w1).1.GenerateOTP cipher w2).2.err = none) :
    (t.GenerateOTP cipher w1).2.text
      ≠ ((t.GenerateOTP cipher w1).1.GenerateOTP cipher w2).2.text := by
  obtain ⟨b1, ct1, hp1, ha1, hx1⟩ := GenerateOTP_ok cipher w1 t h1
  obtain ⟨b2, ct2, hp2, ha2, hx2⟩ := GenerateOTP_ok cipher w2 _ h2
  obtain ⟨hs1, hs1', hpub1, hkey1⟩ := GenerateOTP_session cipher w1 t b1 hp1
  obtain ⟨hs2, -, hpub2, hkey2⟩ := GenerateOTP_session cipher w2 _ b2 hp2
  intro heq
  rw [hx1, hx2, hpub2] at heq
  have hct : ct1 = ct2 := ModHexEncode_injective _ _ (List.append_cancel_left heq)
  rw [hkey2, hkey1] at ha2
  rw [hkey1] at ha1
  have e1 := AESEncrypt_ok cipher _ _ _ (hlen _ (MarshalBinary_length _)) ha1
  have e2 := AESEncrypt_ok cipher _ _ _ (hlen _ (MarshalBinary_length _)) ha2
  have hpt : b1.ComputeCRC.MarshalBinary = b2.ComputeCRC.MarshalBinary :=
    hinj _ _ (MarshalBinary_length _) (MarshalBinary_length _) (by rw [← e1, ← e2, hct])
  have h11 := congrArg (fun l => l[11]?) hpt
  simp only [MarshalBinary_session, Option.some.injEq] at h11
  have hs : b2.ComputeCRC.Session = nextSession b1.ComputeCRC.Session := by
    show b2.Session = nextSession b1.Session
    rw [hs2, hs1', hs1]
  rw [hs] at h11
  have hlt : b1.ComputeCRC.Session < 256 := by
    show b1.Session < 256
    rw [hs1]
    exact nextSession_lt _
  exact nextSession_byte_ne _ hlt h11.symm

/-- C5 at `sampleToken`: two calls in the same second, both successful, differ. -/
theorem C5_consecutive_otps_differ_witness :
    (sampleToken.GenerateOTP sampleCipher sampleWorld).2.err = none
      ∧ ((sampleToken.GenerateOTP sampleCipher sampleWorld).1.GenerateOTP sampleCipher
          sampleWorld).2.err = none
      ∧ (sampleToken.GenerateOTP sampleCipher sampleWorld).2.text
        ≠ ((sampleToken.GenerateOTP sampleCipher sampleWorld).1.GenerateOTP sampleCipher
            sampleWorld).2.text :=
  ⟨by decide, by decide,
    C5_consecutive_otps_differ sampleCipher sampleWorld sampleWorld sampleToken
      (fun p hp => by simpa [sampleCipher] using hp)
      (fun p q _ _ h => List.reverse_injective h) (by decide) (by decide)⟩

/-- C6: with `Session == 0xFF` and `Counter >= 0x7FFF`, `GenerateOTP` returns the
counter-exhausted error and the empty string, and the token is exactly as it was. -/
theorem C6_counter_exhausted (cipher : List Byte → List Byte → List Byte) (w : OTPWorld)
    (t : SoftToken) (hs : t.Session = 0xff) (hc : t.Counter ≥ 0x7fff) :
    t.GenerateOTP cipher w = (t, ⟨[], some .counterAtMax⟩) := by
  have ha : advanceSession w t = (t, some .counterAtMax) := by
    unfold advanceSession
    rw [if_pos hs, if_pos hc]
  simp only [SoftToken.GenerateOTP, prepareBlock, ha]

/-- C6 at a token with `Session = 0xff` and `Counter = 0x7fff`. -/
theorem C6_counter_exhausted_witness :
    ({ sampleToken with Session := 0xff, Counter := 0x7fff } : SoftToken).GenerateOTP
        sampleCipher sampleWorld
      = ({ sampleToken with Session := 0xff, Counter := 0x7fff }, ⟨[], some .counterAtMax⟩) :=
  C6_counter_exhausted sampleCipher sampleWorld _ (by decide) (by decide)

/-! ## The counter ceiling -/

theorem advanceSession_counter_le (w : OTPWorld) (t : SoftToken) (h : t.Counter ≤ 0x7fff) :
    (advanceSession w t).1.Counter ≤ 0x7fff := by
  unfold advanceSession
  split
  · split
    · exact h
    · rename_i hc
      cases randRead 4 w.ponRand <;> simp only <;> omega
  · exact h

theorem prepareBlock_counter (w : OTPWorld) (t : SoftToken) :
    (prepareBlock w t).1.Counter = (advanceSession w t).1.Counter := by
  unfold prepareBlock
  rcases advanceSession w t with ⟨t1, e⟩
  cases e with
  | some e => rfl
  | none =>
    simp only
    cases randRead 2 w.rnd <;> exact (rateLimit_frame w t1).2.2.2.2.2

theorem GenerateOTP_token (cipher : List Byte → List Byte → List Byte) (w : OTPWorld)
    (t : SoftToken) : (t.GenerateOTP cipher w).1 = (prepareBlock w t).1 := by
  unfold SoftToken.GenerateOTP
  rcases prepareBlock w t with ⟨t2, res⟩
  cases res with
  | error e => rfl
  | ok block =>
    simp only
    split <;> rfl

/-- One call of `GenerateOTP`, successful or not, keeps the counter at or below `0x7fff`. -/
theorem GenerateOTP_counter_le (cipher : List Byte → List Byte → List Byte) (w : OTPWorld)
    (t : SoftToken) (h : t.Counter ≤ 0x7fff) : (t.GenerateOTP cipher w).1.Counter ≤ 0x7fff := by
  rw [GenerateOTP_token, prepareBlock_counter]
  exact advanceSession_counter_le w t h

theorem runOTPs_counter_le (cipher : List Byte → List Byte → List Byte) (ws : List OTPWorld)
    (t : SoftToken) (h : t.Counter ≤ 0x7fff) : (runOTPs cipher ws t).Counter ≤ 0x7fff := by
  induction ws generalizing t with
  | nil => exact h
  | cons w rest ih => exact ih _ (GenerateOTP_counter_le cipher w t h)

theorem New_counter (w : NewWorld) (t : SoftToken) (h : New w = .ok t) : t.Counter = 1 := by
  unfold New at h
  cases h1 : randRead 4 w.publicID <;> rw [h1] at h <;> simp only at h
  · cases h
  cases h2 : randRead 6 w.privateID <;> rw [h2] at h <;> simp only at h
  · cases h
  cases h3 : randRead 16 w.aesKey <;> rw [h3] at h <;> simp only at h
  · cases h
  cases h4 : randRead 4 w.ponRand <;> rw [h4] at h <;> simp only at h
  · cases h
  cases h
  rfl

theorem NewWithOptions_counter (w : NewWorld) (publicID privateID aesKey : Option (List Byte))
    (c : Nat) (t : SoftToken) (h : NewWithOptions w publicID privateID aesKey c = .ok t) :
    t.Counter = (c + 1) % 65536 := by
  unfold NewWithOptions at h
  cases hn : New w <;> rw [hn] at h <;> simp only at h
  · cases h
  cases h
  rfl

/-- C7, the claim as stated fails: `NewWithOptions` with the 16-bit initial counter
`0x7fff` returns a token whose counter is `0x8000`, and `GenerateOTP` then succeeds on it
with the counter still `0x8000`. -/
theorem C7_counterexample :
    ∃ t, NewWithOptions sampleNewWorld none none none 0x7fff = .ok t
      ∧ t.Counter = 0x8000 ∧ ¬ t.Counter ≤ 0x7fff
      ∧ (t.GenerateOTP sampleCipher sampleWorld).2.err = none
      ∧ (t.GenerateOTP sampleCipher sampleWorld).1.Counter = 0x8000 :=
  ⟨_, rfl, by decide, by decide, by decide, by decide⟩

/-- C7, amended: a token produced by `New`, or by `NewWithOptions` with an initial counter
below `0x7fff`, has `Counter <= 0x7FFF`, and so has the token after any sequence of
`GenerateOTP` calls on it (the empty sequence gives the token itself). -/
theorem C7_counter_ceiling (cipher : List Byte → List Byte → List Byte) (wn : NewWorld)
    (publicID privateID aesKey : Option (List Byte)) (c : Nat) (ws : List OTPWorld)
    (t : SoftToken) :
    (New wn = .ok t → (runOTPs cipher ws t).Counter ≤ 0x7fff)
      ∧ (NewWithOptions wn publicID privateID aesKey c = .ok t → c < 0x7fff →
          (runOTPs cipher ws t).Counter ≤ 0x7fff) := by
  constructor
  · intro h
    exact runOTPs_counter_le cipher ws t (by rw [New_counter wn t h]; decide)
  · intro h hc
    have hcnt := NewWithOptions_counter wn publicID privateID aesKey c t h
    exact runOTPs_counter_le cipher ws t (by rw [hcnt]; omega)

/-- C7 amended, at `sampleNewWorld`: the token of `New`, and the token of `NewWithOptions`
with initial counter 100, after three calls of `GenerateOTP`. -/
theorem C7_counter_ceiling_witness :
    (∃ t, New sampleNewWorld = .ok t
      ∧ (runOTPs sampleCipher [sampleWorld, sampleWorld, sampleWorld] t).Counter ≤ 0x7fff)
    ∧ (∃ t, NewWithOptions sampleNewWorld none none none 100 = .ok t
      ∧ (runOTPs sampleCipher [sampleWorld, sampleWorld, sampleWorld] t).Counter ≤ 0x7fff) :=
  ⟨⟨_, rfl,
      (C7_counter_ceiling sampleCipher sampleNewWorld none none none 100
        [sampleWorld, sampleWorld, sampleWorld] _).1 rfl⟩,
    ⟨_, rfl,
      (C7_counter_ceiling sampleCipher sampleNewWorld none none none 100
        [sampleWorld, sampleWorld, sampleWorld] _).2 rfl (by decide)⟩⟩

/-! ## The timestamp -/

/-- The 32-bit sum behind `hzTime`, over the integers: the two 64-bit wrap-arounds and the
conversion to `uint32` amount to one reduction modulo `2 ^ 32`. -/
theorem hzTime_eq (t : SoftToken) (now : Int) (hp : t.PonRand < 4294967296) :
    (hzTime t now : Int)
      = (((now - t.Created) * 8 + (t.PonRand : Int)) % 4294967296) % 0xffffff := by
  unfold hzTime toUint32 wrapInt64
  push_cast
  omega

theorem rateLimit_ponRand_lt (w : OTPWorld) (t : SoftToken) :
    (rateLimit w t).1.PonRand < 4294967296 := by
  have hand : t.PonRand &&& 0xfffffff0 < 4294967296 :=
    Nat.lt_of_le_of_lt Nat.and_le_right (by decide)
  unfold rateLimit
  split
  · split
    · exact hand
    · exact Nat.mod_lt _ (by decide)
  · exact hand

/-- C8, the claim as stated fails: with `PonRand = 0xfffffff0`, five seconds after
creation, the successful call puts the timestamp 24 in the block, while
`((now - Created) * 8 + PonRand) mod 0xFFFFFF` over the integers is 280. -/
theorem C8_counterexample :
    ∃ block,
      prepareBlock sampleWorld { sampleToken with PonRand := 0xfffffff0 }
        = ((({ sampleToken with PonRand := 0xfffffff0 } : SoftToken).GenerateOTP sampleCipher
            sampleWorld).1, .ok block)
      ∧ (({ sampleToken with PonRand := 0xfffffff0 } : SoftToken).GenerateOTP sampleCipher
          sampleWorld).2.err = none
      ∧ (rateLimit sampleWorld
          (advanceSession sampleWorld { sampleToken with PonRand := 0xfffffff0 }).1).2
          = 1700000005
      ∧ (rateLimit sampleWorld
          (advanceSession sampleWorld { sampleToken with PonRand := 0xfffffff0 }).1).1.PonRand
          = 0xfffffff0
      ∧ block.Timestamp = 24
      ∧ (((1700000005 : Int) - sampleToken.Created) * 8 + (0xfffffff0 : Int)) % 0xffffff = 280 :=
  ⟨_, rfl, by decide, by decide, by decide, by decide, by decide⟩

/-- C8, amended: the timestamp that a successful `GenerateOTP` places in the block is
`(((now - Created) * 8 + PonRand) mod 2^32) mod 0xFFFFFF`, with `now` and `PonRand` the
values after the anti-collision step: the sum is first reduced to 32 bits. It is the value
`((now - Created) * 8 + PonRand) mod 0xFFFFFF` of the claim whenever that sum lies in
`[0, 2^32)`. -/
theorem C8_timestamp (cipher : List Byte → List Byte → List Byte) (w : OTPWorld)
    (t : SoftToken) (h : (t.GenerateOTP cipher w).2.err = none) :
    ∃ block t1, advanceSession w t = (t1, none)
      ∧ prepareBlock w t = ((t.GenerateOTP cipher w).1, .ok block)
      ∧ (t.GenerateOTP cipher w).1 = (rateLimit w t1).1
      ∧ (block.Timestamp : Int)
          = ((((rateLimit w t1).2 - t.Created) * 8 + ((rateLimit w t1).1.PonRand : Int))
              % 4294967296) % 0xffffff
      ∧ (0 ≤ ((rateLimit w t1).2 - t.Created) * 8 + ((rateLimit w t1).1.PonRand : Int)
          ∧ ((rateLimit w t1).2 - t.Created) * 8 + ((rateLimit w t1).1.PonRand : Int)
              < 4294967296 →
          (block.Timestamp : Int)
            = (((rateLimit w t1).2 - t.Created) * 8 + ((rateLimit w t1).1.PonRand : Int))
                % 0xffffff) := by
  obtain ⟨block, ct, hp, -, -⟩ := GenerateOTP_ok cipher w t h
  obtain ⟨t1, rndBytes, ha, ht2, -, hb⟩ := prepareBlock_ok w t _ block hp
  have hcr : (rateLimit w t1).1.Created = t.Created := by
    rw [(rateLimit_frame w t1).2.2.2.2.1, (advanceSession_ok w t t1 ha).2.2.2.2.1]
  have hts : (block.Timestamp : Int)
      = ((((rateLimit w t1).2 - t.Created) * 8 + ((rateLimit w t1).1.PonRand : Int))
          % 4294967296) % 0xffffff := by
    rw [hb, ht2]
    simp only
    rw [hzTime_eq _ _ (rateLimit_ponRand_lt w t1), hcr]
  refine ⟨block, t1, ha, hp, ht2, hts, ?_⟩
  intro hrange
  rw [hts, Int.emod_eq_of_lt hrange.1 hrange.2]

/-- C8 amended, at `sampleToken` and `sampleWorld`: the call succeeds. -/
theorem C8_timestamp_witness :
    (sampleToken.GenerateOTP sampleCipher sampleWorld).2.err = none
      ∧ ∃ block t1, advanceSession sampleWorld sampleToken = (t1, none)
        ∧ prepareBlock sampleWorld sampleToken
            = ((sampleToken.GenerateOTP sampleCipher sampleWorld).1, .ok block)
        ∧ (block.Timestamp : Int)
            = ((((rateLimit sampleWorld t1).2 - sampleToken.Created) * 8
                + ((rateLimit sampleWorld t1).1.PonRand : Int)) % 4294967296) % 0xffffff := by
  refine ⟨by decide, ?_⟩
  obtain ⟨block, t1, ha, hp, -, hts, -⟩ :=
    C8_timestamp sampleCipher sampleWorld sampleToken (by decide)
  exact ⟨block, t1, ha, hp, hts⟩

/-! ## Facts about the library text functions -/

/-- Reading one more digit in `parseUintLoop`. -/
theorem parseUintLoop_digit (maxVal d n : Nat) (rest : List Byte) (hd : d < 10)
    (hn : n * 10 + d ≤ maxVal) (hmax : maxVal < 18446744073709551616) :
    parseUintLoop maxVal (toByte (48 + d) :: rest) n = parseUintLoop maxVal rest (n * 10 + d) := by
  have hval : (toByte (48 + d)).val = 48 + d := by
    simp only [toByte]
    omega
  have hmod : (n * 10 + (48 + d - 48)) % 18446744073709551616 = n * 10 + d := by
    rw [Nat.add_sub_cancel_left]
    exact Nat.mod_eq_of_lt (by omega)
  rw [parseUintLoop]
  simp only [hval, hmod]
  rw [if_pos (by omega), if_neg (by omega), if_neg (by omega)]

/-- Parsing what `fmtDigits` wrote gives the number back. -/
theorem parseUintLoop_fmtDigits (maxVal fuel : Nat) (hmax : maxVal < 18446744073709551616) :
    ∀ (u : Nat) (acc : List Byte), u < 10 ^ (fuel + 1) → u ≤ maxVal →
      parseUintLoop maxVal (fmtDigits fuel u acc) 0 = parseUintLoop maxVal acc u := by
  induction fuel with
  | zero =>
    intro u acc hu hm
    have hu10 : u < 10 := by simpa using hu
    rw [fmtDigits, Nat.mod_eq_of_lt hu10,
      parseUintLoop_digit maxVal u 0 acc hu10 (by omega) hmax]
    simp
  | succ k ih =>
    intro u acc hu hm
    rw [fmtDigits]
    split
    · rename_i hge
      have hdiv : u / 10 < 10 ^ (k + 1) := by
        rw [Nat.div_lt_iff_lt_mul (by decide)]
        calc u < 10 ^ (k + 1 + 1) := hu
          _ = 10 ^ (k + 1) * 10 := by rw [Nat.pow_succ]
      rw [ih (u / 10) _ hdiv (by omega),
        parseUintLoop_digit maxVal (u % 10) (u / 10) acc (Nat.mod_lt _ (by decide))
          (by omega) hmax]
      congr 1
      omega
    · rename_i hlt
      have hu10 : u < 10 := by omega
      rw [parseUintLoop_digit maxVal u 0 acc hu10 (by omega) hmax]
      simp

theorem fmtDigits_ne_nil (fuel u : Nat) (acc : List Byte) : fmtDigits fuel u acc ≠ [] := by
  induction fuel generalizing u acc with
  | zero => simp [fmtDigits]
  | succ k ih =>
    rw [fmtDigits]
    split
    · exact ih _ _
    · simp

/-- The function `ParseUint` reads back what `%d` wrote for a value that fits `bitSize` bits. -/
theorem ParseUint_fmtUint (u bitSize : Nat) (hb : bitSize ≤ 64) (hu : u < 2 ^ bitSize) :
    ParseUint (fmtUint u) bitSize = .ok u := by
  have hpow : 2 ^ bitSize ≤ 2 ^ 64 := Nat.pow_le_pow_right (by decide) hb
  have h64 : (2 : Nat) ^ 64 = 18446744073709551616 := by norm_num
  unfold ParseUint fmtUint
  rw [if_neg (fmtDigits_ne_nil _ _ _),
    parseUintLoop_fmtDigits (2 ^ bitSize - 1) 20 (by omega) u [] (by norm_num; omega) (by omega)]
  rfl

theorem plain_digit (d : Nat) (hd : d < 10) :
    48 ≤ (toByte (48 + d)).val ∧ (toByte (48 + d)).val ≤ 57 := by
  simp only [toByte]
  omega

theorem fmtDigits_mem (fuel u : Nat) (acc : List Byte) :
    ∀ c ∈ fmtDigits fuel u acc, (48 ≤ c.val ∧ c.val ≤ 57) ∨ c ∈ acc := by
  induction fuel generalizing u acc with
  | zero =>
    intro c hc
    rw [fmtDigits, List.mem_cons] at hc
    rcases hc with h | h
    · rw [h]; exact Or.inl (plain_digit _ (Nat.mod_lt _ (by decide)))
    · exact Or.inr h
  | succ k ih =>
    intro c hc
    rw [fmtDigits] at hc
    split at hc
    · rcases ih _ _ c hc with h | h
      · exact Or.inl h
      · rw [List.mem_cons] at h
        rcases h with h | h
        · rw [h]; exact Or.inl (plain_digit _ (Nat.mod_lt _ (by decide)))
        · exact Or.inr h
    · rename_i hlt
      rw [List.mem_cons] at hc
      rcases hc with h | h
      · rw [h]; exact Or.inl (plain_digit _ (by omega))
      · exact Or.inr h

theorem fmtUint_digits (u : Nat) : ∀ c ∈ fmtUint u, 48 ≤ c.val ∧ c.val ≤ 57 := by
  intro c hc
  rcases fmtDigits_mem 20 u [] c hc with h | h
  · exact h
  · simp at h

theorem fmtDigits_length (fuel u : Nat) (acc : List Byte) :
    (fmtDigits fuel u acc).length ≤ fuel + 1 + acc.length := by
  induction fuel generalizing u acc with
  | zero =>
    simp only [fmtDigits, List.length_cons]
    omega
  | succ k ih =>
    rw [fmtDigits]
    split
    · have := ih (u / 10) (toByte (48 + u % 10) :: acc)
      simp only [List.length_cons] at this
      omega
    · simp only [List.length_cons]
      omega

/-- The value of `ParseInt64` on a string that starts with a minus sign. -/
theorem ParseInt64_minus (rest : List Byte) (un : Nat) (h : ParseUint rest 64 = .ok un)
    (hun : un ≤ 9223372036854775808) :
    ParseInt64 (45 :: rest) = .ok (wrapInt64 (-(wrapInt64 un))) := by
  simp only [ParseInt64, or_true, if_true, h, decide_True, not_true_eq_false, false_and,
    if_false, true_and]
  rw [if_neg (by omega)]

/-- The value of `ParseInt64` on a string that starts with a digit. -/
theorem ParseInt64_digit (c : Byte) (rest : List Byte) (un : Nat)
    (hc : 48 ≤ c.val ∧ c.val ≤ 57) (h : ParseUint (c :: rest) 64 = .ok un)
    (hun : un < 9223372036854775808) :
    ParseInt64 (c :: rest) = .ok (wrapInt64 un) := by
  have h43 : c ≠ 43 := by
    intro h; rw [h] at hc; revert hc; decide
  have h45 : c ≠ 45 := by
    intro h; rw [h] at hc; revert hc; decide
  simp only [ParseInt64, h43, h45, or_self, if_false, h, decide_False, Bool.false_eq_true,
    not_false_eq_true, true_and, false_and]
  rw [if_neg (by omega)]

/-- The function `ParseInt` reads back what `%d` wrote for an `int64`. -/
theorem ParseInt64_fmtInt (v : Int) (hlo : -9223372036854775808 ≤ v)
    (hhi : v < 9223372036854775808) : ParseInt64 (fmtInt v) = .ok v := by
  unfold fmtInt
  split
  · rename_i hneg
    have hm : (-v).toNat < 2 ^ 64 := by norm_num; omega
    have hw : wrapInt64 (-(wrapInt64 ((-v).toNat : Int))) = v := by
      unfold wrapInt64
      omega
    rw [ParseInt64_minus _ _ (ParseUint_fmtUint _ 64 (le_refl _) hm) (by omega), hw]
  · rename_i hpos
    have hm : v.toNat < 2 ^ 64 := by norm_num; omega
    have hparse := ParseUint_fmtUint _ 64 (le_refl _) hm
    cases hf : fmtUint v.toNat with
    | nil => exact absurd hf (fmtDigits_ne_nil _ _ _)
    | cons c rest =>
      have hc := fmtUint_digits v.toNat c (by rw [hf]; exact List.mem_cons_self _ _)
      rw [hf] at hparse
      have hw : wrapInt64 (v.toNat : Int) = v := by
        unfold wrapInt64
        omega
      rw [ParseInt64_digit c rest _ hc hparse (by omega), hw]

/-! ## Facts about the lines of a record -/

theorem stripSpace_none (runes : List (List Byte)) (c : Byte) (s : List Byte)
    (h : noSpaceStarts runes c = true) : stripSpace runes (c :: s) = none := by
  unfold stripSpace
  have hf : runes.find? (fun r => r.isPrefixOf (c :: s)) = none := by
    rw [List.find?_eq_none]
    intro r hr
    unfold noSpaceStarts at h
    rw [List.all_eq_true] at h
    have hr2 := h r hr
    cases r with
    | nil => simp at hr2
    | cons a rest =>
      simp only [bne_iff_ne, ne_eq] at hr2
      simp [List.isPrefixOf, hr2]
  rw [hf]
  rfl

theorem trimLeft_of_none (runes : List (List Byte)) (fuel : Nat) (s : List Byte)
    (h : stripSpace runes s = none) : trimLeft runes fuel s = s := by
  cases fuel with
  | zero => rfl
  | succ k => rw [trimLeft, h]

theorem stripSpace_length (runes : List (List Byte)) (s rest : List Byte)
    (hr : ∀ r ∈ runes, r ≠ []) (h : stripSpace runes s = some rest) :
    rest.length < s.length := by
  unfold stripSpace at h
  cases hf : runes.find? (fun r => r.isPrefixOf s) with
  | none => rw [hf] at h; simp at h
  | some r =>
    rw [hf] at h
    simp only [Option.map_some', Option.some.injEq] at h
    have hmem : r ∈ runes := List.mem_of_find?_eq_some hf
    have hpre : r.isPrefixOf s = true :=
      @List.find?_some _ (fun r => r.isPrefixOf s) r runes hf
    have hlen : r.length ≤ s.length := (List.isPrefixOf_iff_prefix.mp hpre).length_le
    have hpos : 0 < r.length := List.length_pos.mpr (hr r hmem)
    rw [← h, List.length_drop]
    omega

/-- The bound `s.length` on the rounds of `trimLeft` is enough: no space is left in front
of the result. -/
theorem trimLeft_complete (runes : List (List Byte)) (hr : ∀ r ∈ runes, r ≠ []) :
    ∀ (fuel : Nat) (s : List Byte), s.length ≤ fuel →
      stripSpace runes (trimLeft runes fuel s) = none := by
  intro fuel
  induction fuel with
  | zero =>
    intro s hs
    rw [trimLeft]
    cases hstrip : stripSpace runes s with
    | none => rfl
    | some rest =>
      have := stripSpace_length runes s rest hr hstrip
      omega
  | succ k ih =>
    intro s hs
    rw [trimLeft]
    cases hstrip : stripSpace runes s with
    | none => exact hstrip
    | some rest =>
      have := stripSpace_length runes s rest hr hstrip
      exact ih rest (by omega)

set_option maxRecDepth 100000 in
/-- No space starts or ends with a plain byte. -/
theorem plain_noSpace : ∀ c : Byte, plain c →
    noSpaceStarts spaceRunes c = true
      ∧ noSpaceStarts (spaceRunes.map List.reverse) c = true := by
  decide

/-- A string that starts and ends with a plain byte has nothing to trim. -/
theorem TrimSpace_plain (v : List Byte) (hv : GoodValue v) : TrimSpace v = v := by
  obtain ⟨hne, hplain, -⟩ := hv
  have hleft : trimLeft spaceRunes v.length v = v := by
    cases v with
    | nil => exact absurd rfl hne
    | cons c s =>
      exact trimLeft_of_none _ _ _
        (stripSpace_none _ c s (plain_noSpace c (hplain c (List.mem_cons_self _ _))).1)
  have hright : trimLeft (spaceRunes.map List.reverse) v.length v.reverse = v.reverse := by
    cases hr : v.reverse with
    | nil => exact absurd (List.reverse_eq_nil_iff.mp hr) hne
    | cons c s =>
      have hc : c ∈ v := by
        rw [← List.mem_reverse, hr]
        exact List.mem_cons_self _ _
      exact trimLeft_of_none _ _ _
        (stripSpace_none _ c s (plain_noSpace c (hplain c hc)).2)
  unfold TrimSpace
  simp only [hleft, hright, List.reverse_reverse]

/-- One space before a value is trimmed away. -/
theorem TrimSpace_space_plain (v : List Byte) (hv : GoodValue v) : TrimSpace (32 :: v) = v := by
  have hstrip : stripSpace spaceRunes (32 :: v) = some v := by
    simp [stripSpace, spaceRunes, List.find?, List.isPrefixOf]
  have h := TrimSpace_plain v hv
  unfold TrimSpace at h ⊢
  simp only [List.length_cons, trimLeft, hstrip]
  exact h

theorem splitColon_append (k rest : List Byte) (hk : (58 : Byte) ∉ k) :
    splitColon (k ++ 58 :: rest) = some (k, rest) := by
  induction k with
  | nil => simp [splitColon]
  | cons c cs ih =>
    have hc : c ≠ 58 := fun h => hk (by rw [h]; exact List.mem_cons_self _ _)
    have hcs : (58 : Byte) ∉ cs := fun h => hk (List.mem_cons_of_mem _ h)
    rw [List.cons_append, splitColon, if_neg hc, ih hcs]

theorem scanLines_append (l rest cur : List Byte) (hl : (10 : Byte) ∉ l) :
    scanLines (l ++ 10 :: rest) cur = (cur.reverse ++ l) :: scanLines rest [] := by
  induction l generalizing cur with
  | nil => simp [scanLines]
  | cons c cs ih =>
    have hc : c ≠ 10 := fun h => hl (by rw [h]; exact List.mem_cons_self _ _)
    have hcs : (10 : Byte) ∉ cs := fun h => hl (List.mem_cons_of_mem _ h)
    rw [List.cons_append, scanLines, if_neg hc, ih _ hcs, List.reverse_cons,
      List.append_assoc, List.singleton_append]

set_option maxRecDepth 100000 in
theorem plain_ne : ∀ c : Byte, plain c → c ≠ 10 ∧ c ≠ 13 ∧ c ≠ 58 := by
  decide

theorem str_colon_space : str ": " = [58, 32] := by decide

/-- The line that `Save` writes for a field, without its newline: it has no newline inside,
it fits the buffer of the scanner and it does not end with a carriage return. -/
theorem fieldLine_shape (k v : List Byte) (hk : GoodKey k) (hv : GoodValue v) :
    (10 : Byte) ∉ k ++ str ": " ++ v ∧ (k ++ str ": " ++ v).length < 65536
      ∧ dropCR (k ++ str ": " ++ v) = k ++ str ": " ++ v := by
  obtain ⟨-, hk10, -, hklen⟩ := hk
  obtain ⟨hne, hplain, hvlen⟩ := hv
  refine ⟨?_, ?_, ?_⟩
  · intro h
    rw [str_colon_space] at h
    simp only [List.mem_append, List.mem_cons, List.mem_singleton] at h
    rcases h with (h | h | h) | h
    · exact hk10 h
    · revert h; decide
    · rcases h with h | h
      · revert h; decide
      · simp at h
    · exact (plain_ne _ (hplain _ h)).1 rfl
  · rw [str_colon_space]
    simp only [List.length_append, List.length_cons, List.length_nil]
    omega
  · unfold dropCR
    rw [if_neg]
    rw [List.getLast?_append]
    cases hl : v.getLast? with
    | none => exact absurd (List.getLast?_eq_none_iff.mp hl) hne
    | some x =>
      have hx := (plain_ne x (hplain x (List.mem_of_getLast?_eq_some hl))).2.1
      simp only [Option.or_some, Option.some.injEq]
      exact hx

/-- On the line that `Save` writes for a field, `loadLine` runs the switch on the field
name and the value. -/
theorem loadLine_fieldLine (uni : List Byte → List Byte) (now : Int) (t : SoftToken)
    (k v : List Byte) (hk : GoodKey k) (hv : GoodValue v) :
    loadLine uni now t (k ++ str ": " ++ v) = loadField uni now t k v := by
  have hsplit : splitColon (k ++ str ": " ++ v) = some (k, 32 :: v) := by
    rw [str_colon_space, List.append_assoc]
    exact splitColon_append k (32 :: v) hk.1
  unfold loadLine
  rw [hsplit]
  simp only [hk.2.2.1, TrimSpace_space_plain v hv]

/-- The scanner cuts the first line that `Save` wrote off the text. -/
theorem scanLines_fieldLine (f : String) (v rest : List Byte)
    (h : (10 : Byte) ∉ str f ++ str ": " ++ v) :
    scanLines (fieldLine f v ++ rest) [] = (str f ++ str ": " ++ v) :: scanLines rest [] := by
  unfold fieldLine
  rw [List.append_assoc (str f ++ str ": " ++ v) [10] rest, List.singleton_append,
    scanLines_append _ _ _ h]
  rfl

/-- One round of the loop of `Load` on a line that `Save` wrote. -/
theorem loadLines_fieldLine (uni : List Byte → List Byte) (clock : Nat → Int) (i : Nat)
    (k v : List Byte) (rest : List (List Byte)) (t t2 : SoftToken)
    (hk : GoodKey k) (hv : GoodValue v) (h : loadField uni (clock i) t k v = .ok t2) :
    loadLines uni clock i ((k ++ str ": " ++ v) :: rest) t
      = loadLines uni clock (i + 1) rest t2 := by
  obtain ⟨-, hlen, hcr⟩ := fieldLine_shape k v hk hv
  rw [loadLines, if_neg (by omega), hcr, loadLine_fieldLine uni _ t k v hk hv, h]

theorem copyInto_same_length (dst src : List Byte) (h : dst.length = src.length) :
    copyInto dst src = src := by
  unfold copyInto
  rw [h, List.take_length, List.drop_eq_nil_of_le (by omega), List.append_nil]

/-! ## What `Save` writes is read back by `Load` -/

theorem alphabets_plain : ∀ i < 16,
    plain (modHexAlphabet.getD i 0) ∧ plain (hexAlphabet.getD i 0) := by
  decide

theorem ModHexEncode_plain (data : List Byte) : ∀ c ∈ ModHexEncode data, plain c := by
  induction data with
  | nil => intro c hc; simp [ModHexEncode] at hc
  | cons b rest ih =>
    intro c hc
    simp only [ModHexEncode, List.mem_cons] at hc
    rcases hc with h | h | h
    · rw [h]; exact (alphabets_plain _ (nibbles_lt b).1).1
    · rw [h]; exact (alphabets_plain _ (nibbles_lt b).2).1
    · exact ih c h

theorem HexEncode_plain (data : List Byte) : ∀ c ∈ HexEncode data, plain c := by
  induction data with
  | nil => intro c hc; simp [HexEncode] at hc
  | cons b rest ih =>
    intro c hc
    simp only [HexEncode, List.mem_cons] at hc
    rcases hc with h | h | h
    · rw [h]; exact (alphabets_plain _ (nibbles_lt b).1).2
    · rw [h]; exact (alphabets_plain _ (nibbles_lt b).2).2
    · exact ih c h

theorem ModHexEncode_good (data : List Byte) (h0 : 0 < data.length) (h : data.length ≤ 20) :
    GoodValue (ModHexEncode data) := by
  refine ⟨?_, ModHexEncode_plain data, ?_⟩
  · intro hnil
    have := ModHexEncode_length data
    rw [hnil] at this
    simp only [List.length_nil] at this
    omega
  · rw [ModHexEncode_length]
    omega

theorem HexEncode_good (data : List Byte) (h0 : 0 < data.length) (h : data.length ≤ 20) :
    GoodValue (HexEncode data) := by
  refine ⟨?_, HexEncode_plain data, ?_⟩
  · intro hnil
    have := HexEncode_length data
    rw [hnil] at this
    simp only [List.length_nil] at this
    omega
  · rw [HexEncode_length]
    omega

theorem fmtUint_good (u : Nat) : GoodValue (fmtUint u) := by
  refine ⟨fmtDigits_ne_nil _ _ _, fun c hc => Or.inl (fmtUint_digits u c hc), ?_⟩
  have := fmtDigits_length 20 u []
  simp only [List.length_nil] at this
  unfold fmtUint
  omega

theorem fmtInt_good (v : Int) : GoodValue (fmtInt v) := by
  unfold fmtInt
  split
  · obtain ⟨-, hplain, hlen⟩ := fmtUint_good (-v).toNat
    refine ⟨by simp, ?_, ?_⟩
    · intro c hc
      rw [List.mem_cons] at hc
      rcases hc with h | h
      · rw [h]; exact Or.inr (Or.inr rfl)
      · exact hplain c h
    · have := fmtDigits_length 20 (-v).toNat []
      simp only [List.length_nil] at this
      simp only [List.length_cons, fmtUint]
      omega
  · exact fmtUint_good _

/-- The text that `Save` writes is read back by `Load` as the token it was written from,
when the clock at the `lastuse` line (line 6, counting from 0) is not before `LastUse`. -/
theorem Load_Save (uni : List Byte → List Byte) (clock : Nat → Int) (t : SoftToken)
    (hwf : t.WF) (hnow : t.LastUse ≤ clock 6) : Load uni clock t.Save = .ok t := by
  obtain ⟨hpub, hpriv, hkey, hcnt, hses, hc1, hc2, hl1, hl2, hpon⟩ := hwf
  have g1 := ModHexEncode_good t.PublicID (by omega) (by omega)
  have g2 := HexEncode_good t.PrivateID (by omega) (by omega)
  have g3 := HexEncode_good t.AESKey (by omega) (by omega)
  have g4 := fmtUint_good t.Counter
  have g5 := fmtUint_good t.Session
  have g6 := fmtInt_good t.Created
  have g7 := fmtInt_good t.LastUse
  have g8 := fmtUint_good t.PonRand
  have k1 : GoodKey (str "public_id") := by decide
  have k2 : GoodKey (str "private_id") := by decide
  have k3 : GoodKey (str "aes_key") := by decide
  have k4 : GoodKey (str "counter") := by decide
  have k5 : GoodKey (str "session") := by decide
  have k6 : GoodKey (str "created") := by decide
  have k7 : GoodKey (str "lastuse") := by decide
  have k8 : GoodKey (str "ponrand") := by decide
  have hscan : scanLines t.Save [] =
      [str "public_id" ++ str ": " ++ ModHexEncode t.PublicID,
       str "private_id" ++ str ": " ++ HexEncode t.PrivateID,
       str "aes_key" ++ str ": " ++ HexEncode t.AESKey,
       str "counter" ++ str ": " ++ fmtUint t.Counter,
       str "session" ++ str ": " ++ fmtUint t.Session,
       str "created" ++ str ": " ++ fmtInt t.Created,
       str "lastuse" ++ str ": " ++ fmtInt t.LastUse,
       str "ponrand" ++ str ": " ++ fmtUint t.PonRand] := by
    have hlast : fieldLine "ponrand" (fmtUint t.PonRand)
        = fieldLine "ponrand" (fmtUint t.PonRand) ++ [] := (List.append_nil _).symm
    unfold SoftToken.Save
    rw [hlast]
    simp only [List.append_assoc (fieldLine _ _)]
    rw [scanLines_fieldLine _ _ _ (fieldLine_shape _ _ k1 g1).1,
      scanLines_fieldLine _ _ _ (fieldLine_shape _ _ k2 g2).1,
      scanLines_fieldLine _ _ _ (fieldLine_shape _ _ k3 g3).1,
      scanLines_fieldLine _ _ _ (fieldLine_shape _ _ k4 g4).1,
      scanLines_fieldLine _ _ _ (fieldLine_shape _ _ k5 g5).1,
      scanLines_fieldLine _ _ _ (fieldLine_shape _ _ k6 g6).1,
      scanLines_fieldLine _ _ _ (fieldLine_shape _ _ k7 g7).1,
      scanLines_fieldLine _ _ _ (fieldLine_shape _ _ k8 g8).1]
    rfl
  have f1 : ∀ s : SoftToken, loadField uni (clock 0) s (str "public_id")
      (ModHexEncode t.PublicID) = .ok { s with PublicID := copyInto s.PublicID t.PublicID } := by
    intro s
    rw [loadField, if_pos rfl, ModHexDecode_encode]
  have f2 : ∀ s : SoftToken, loadField uni (clock 1) s (str "private_id")
      (HexEncode t.PrivateID) = .ok { s with PrivateID := copyInto s.PrivateID t.PrivateID } := by
    intro s
    rw [loadField, if_neg (by decide), if_pos rfl, HexDecode_encode]
  have f3 : ∀ s : SoftToken, loadField uni (clock 2) s (str "aes_key")
      (HexEncode t.AESKey) = .ok { s with AESKey := copyInto s.AESKey t.AESKey } := by
    intro s
    rw [loadField, if_neg (by decide), if_neg (by decide), if_pos rfl, HexDecode_encode]
  have f4 : ∀ s : SoftToken, loadField uni (clock 3) s (str "counter")
      (fmtUint t.Counter) = .ok { s with Counter := t.Counter % 65536 } := by
    intro s
    rw [loadField, if_neg (by decide), if_neg (by decide), if_neg (by decide), if_pos rfl,
      ParseUint_fmtUint _ 16 (by decide) (by norm_num; omega)]
  have f5 : ∀ s : SoftToken, loadField uni (clock 4) s (str "session")
      (fmtUint t.Session) = .ok { s with Session := t.Session % 256 } := by
    intro s
    rw [loadField, if_neg (by decide), if_neg (by decide), if_neg (by decide),
      if_neg (by decide), if_pos rfl, ParseUint_fmtUint _ 8 (by decide) (by norm_num; omega)]
  have f6 : ∀ s : SoftToken, loadField uni (clock 5) s (str "created")
      (fmtInt t.Created) = .ok { s with Created := t.Created } := by
    intro s
    rw [loadField, if_neg (by decide), if_neg (by decide), if_neg (by decide),
      if_neg (by decide), if_neg (by decide), if_pos rfl, ParseInt64_fmtInt _ hc1 hc2]
  have f7 : ∀ s : SoftToken, loadField uni (clock 6) s (str "lastuse")
      (fmtInt t.LastUse) = .ok { s with LastUse := t.LastUse } := by
    intro s
    rw [loadField, if_neg (by decide), if_neg (by decide), if_neg (by decide),
      if_neg (by decide), if_neg (by decide), if_neg (by decide), if_pos rfl,
      ParseInt64_fmtInt _ hl1 hl2]
    simp only
    rw [if_neg (by omega)]
  have f8 : ∀ s : SoftToken, loadField uni (clock 7) s (str "ponrand")
      (fmtUint t.PonRand) = .ok { s with PonRand := t.PonRand % 4294967296 } := by
    intro s
    rw [loadField, if_neg (by decide), if_neg (by decide), if_neg (by decide),
      if_neg (by decide), if_neg (by decide), if_neg (by decide), if_neg (by decide),
      if_pos rfl, ParseUint_fmtUint _ 32 (by decide) (by norm_num; omega)]
  unfold Load
  rw [hscan,
    loadLines_fieldLine uni clock 0 _ _ _ _ _ k1 g1 (f1 _),
    loadLines_fieldLine uni clock 1 _ _ _ _ _ k2 g2 (f2 _),
    loadLines_fieldLine uni clock 2 _ _ _ _ _ k3 g3 (f3 _),
    loadLines_fieldLine uni clock 3 _ _ _ _ _ k4 g4 (f4 _),
    loadLines_fieldLine uni clock 4 _ _ _ _ _ k5 g5 (f5 _),
    loadLines_fieldLine uni clock 5 _ _ _ _ _ k6 g6 (f6 _),
    loadLines_fieldLine uni clock 6 _ _ _ _ _ k7 g7 (f7 _),
    loadLines_fieldLine uni clock 7 _ _ _ _ _ k8 g8 (f8 _), loadLines]
  simp only [zeroToken]
  rw [copyInto_same_length _ _ (by rw [List.length_replicate, hpub]),
    copyInto_same_length _ _ (by rw [List.length_replicate, hpriv]),
    copyInto_same_length _ _ (by rw [List.length_replicate, hkey]),
    Nat.mod_eq_of_lt hcnt, Nat.mod_eq_of_lt hses, Nat.mod_eq_of_lt hpon]

/-- C9: for every token `t` (with fields in their ranges) whose `LastUse` is not later than
the clock when `Load` handles the `lastuse` line, loading the text that `Save` writes for
`t` succeeds and gives a token with the same `PublicID`, `PrivateID`, `AESKey`, `Counter`,
`Session` and `Created` (and indeed the same token). -/
theorem C9_save_load_roundtrip (uni : List Byte → List Byte) (clock : Nat → Int)
    (t : SoftToken) (hwf : t.WF) (hnow : t.LastUse ≤ clock 6) :
    ∃ t2, Load uni clock t.Save = .ok t2 ∧ t2.PublicID = t.PublicID
      ∧ t2.PrivateID = t.PrivateID ∧ t2.AESKey = t.AESKey ∧ t2.Counter = t.Counter
      ∧ t2.Session = t.Session ∧ t2.Created = t.Created ∧ t2 = t :=
  ⟨t, Load_Save uni clock t hwf hnow, rfl, rfl, rfl, rfl, rfl, rfl, rfl⟩

/-- C9 at `sampleToken`, loaded five seconds after its last use. -/
theorem C9_save_load_roundtrip_witness :
    sampleToken.WF ∧ sampleToken.LastUse ≤ sampleClock 6
      ∧ ∃ t2, Load id sampleClock sampleToken.Save = .ok t2
        ∧ t2.PublicID = sampleToken.PublicID ∧ t2.PrivateID = sampleToken.PrivateID
        ∧ t2.AESKey = sampleToken.AESKey ∧ t2.Counter = sampleToken.Counter
        ∧ t2.Session = sampleToken.Session ∧ t2.Created = sampleToken.Created
        ∧ t2 = sampleToken :=
  ⟨by decide, by decide,
    C9_save_load_roundtrip id sampleClock sampleToken (by decide) (by decide)⟩

/-! ## A `lastuse` in the future -/

/-- What the loop of `Load` does on a well-formed `lastuse` line. -/
theorem loadLine_lastuse (uni : List Byte → List Byte) (now : Int) (t : SoftToken)
    (raw : List Byte) (v : Int) (h : lastUseValue raw = some v) :
    loadLine uni now t (dropCR raw)
      = if v > now then .error .timeTravel else .ok { t with LastUse := v } := by
  unfold lastUseValue at h
  unfold loadLine
  cases hs : splitColon (dropCR raw) with
  | none => rw [hs] at h; simp at h
  | some kv =>
    obtain ⟨k, val⟩ := kv
    rw [hs] at h
    simp only at h ⊢
    by_cases hk : TrimSpace k = str "lastuse"
    · rw [if_pos hk] at h
      cases hp : ParseInt64 (TrimSpace val) with
      | error e => rw [hp] at h; simp at h
      | ok v2 =>
        rw [hp] at h
        simp only [Option.some.injEq] at h
        rw [hk, loadField, if_neg (by decide), if_neg (by decide), if_neg (by decide),
          if_neg (by decide), if_neg (by decide), if_neg (by decide), if_pos rfl, hp, h]
    · rw [if_neg hk] at h
      simp at h

/-- The `lastuse` line that `Save` writes for a 64-bit value is well formed, with that
value. -/
theorem lastUseValue_fieldLine (v : Int) (hlo : -9223372036854775808 ≤ v)
    (hhi : v < 9223372036854775808) :
    lastUseValue (str "lastuse" ++ str ": " ++ fmtInt v) = some v := by
  have hk : GoodKey (str "lastuse") := by decide
  have hv := fmtInt_good v
  have hsplit : splitColon (str "lastuse" ++ str ": " ++ fmtInt v)
      = some (str "lastuse", 32 :: fmtInt v) := by
    rw [str_colon_space, List.append_assoc]
    exact splitColon_append _ (32 :: fmtInt v) hk.1
  unfold lastUseValue
  rw [(fieldLine_shape _ _ hk hv).2.2, hsplit]
  simp only [hk.2.2.1, TrimSpace_space_plain _ hv, ParseInt64_fmtInt v hlo hhi, if_true]

/-- A well-formed `lastuse` line with a value after the clock makes the loop of `Load`
fail, wherever the line stands and whatever the other lines are. -/
theorem loadLines_future (uni : List Byte → List Byte) (clock : Nat → Int)
    (lines : List (List Byte)) :
    ∀ (j i : Nat) (t : SoftToken) (raw : List Byte) (v : Int), lines[i]? = some raw →
      lastUseValue raw = some v → v > clock (j + i) →
      ∃ e, loadLines uni clock j lines t = .error e := by
  induction lines with
  | nil => intro j i t raw v h; simp at h
  | cons first rest ih =>
    intro j i t raw v hget hval hfut
    rw [loadLines]
    by_cases hlong : first.length ≥ 65536
    · rw [if_pos hlong]
      exact ⟨_, rfl⟩
    · rw [if_neg hlong]
      cases i with
      | zero =>
        simp only [List.getElem?_cons_zero, Option.some.injEq] at hget
        rw [hget, loadLine_lastuse uni _ t raw v hval, if_pos (by simpa using hfut)]
        exact ⟨_, rfl⟩
      | succ i2 =>
        simp only [List.getElem?_cons_succ] at hget
        cases hl : loadLine uni (clock j) t (dropCR first) with
        | error e => exact ⟨e, rfl⟩
        | ok t2 =>
          simp only
          exact ih (j + 1) i2 t2 raw v hget hval (by
            have : j + 1 + i2 = j + (i2 + 1) := by omega
            rw [this]
            exact hfut)

/-- C10: whenever line `i` of a record is a well-formed `lastuse` line whose value is
strictly greater than the clock when `Load` handles that line, `Load` returns an error and
no token, whatever the other lines are; and when the value is not greater than the clock
(in particular when it equals it) the loop of `Load` accepts the line, setting `LastUse`,
and goes on. -/
theorem C10_future_lastuse (uni : List Byte → List Byte) (clock : Nat → Int)
    (text : List Byte) (i : Nat) (raw : List Byte) (v : Int)
    (hline : (scanLines text [])[i]? = some raw) (hval : lastUseValue raw = some v) :
    (v > clock i → ∃ e, Load uni clock text = .error e)
      ∧ (v ≤ clock i → ∀ t, loadLine uni (clock i) t (dropCR raw)
          = .ok { t with LastUse := v }) := by
  constructor
  · intro hfut
    exact loadLines_future uni clock _ 0 i zeroToken raw v hline hval (by simpa using hfut)
  · intro hle t
    rw [loadLine_lastuse uni _ t raw v hval, if_neg (by omega)]

/-- C10 at `futureRecord`, which `Load` rejects, and at `presentRecord`, whose `lastuse`
equals the clock: the loop accepts the line and `Load` returns a token. -/
theorem C10_future_lastuse_witness :
    (∃ e, Load id sampleClock futureRecord = .error e)
      ∧ loadLine id (sampleClock 1) zeroToken (dropCR (str "lastuse: 1700000005"))
          = .ok { zeroToken with LastUse := 1700000005 }
      ∧ (∃ t, Load id sampleClock presentRecord = .ok t ∧ t.LastUse = 1700000005) :=
  ⟨(C10_future_lastuse id sampleClock futureRecord 1 (str "lastuse: 1700000010") 1700000010
      (by decide) (by decide)).1 (by decide),
    (C10_future_lastuse id sampleClock presentRecord 1 (str "lastuse: 1700000005") 1700000005
      (by decide) (by decide)).2 (by decide) zeroToken,
    ⟨_, rfl, by decide⟩⟩

/-! ## Which strings the codecs accept -/

theorem ToLower_ascii (uni : List Byte → List Byte) (s : List Byte)
    (h : ∀ c ∈ s, c.val < 0x80) : ToLower uni s = s.map lowerByte := by
  unfold ToLower
  rw [if_pos]
  rw [List.all_eq_true]
  intro c hc
  simpa using h c hc

theorem ToLower_nonAscii (uni : List Byte → List Byte) (s : List Byte)
    (h : ∃ c ∈ s, 0x80 ≤ c.val) : ToLower uni s = uni s := by
  unfold ToLower
  rw [if_neg]
  rw [List.all_eq_true]
  intro hall
  obtain ⟨c, hc, hge⟩ := h
  have := hall c hc
  simp only [decide_eq_true_eq] at this
  omega

/-- A result that is no success is an error. -/
theorem error_of_not_ok {α : Type} (r : Except Err α) (h : ¬ ∃ b, r = .ok b) :
    ∃ e, r = .error e := by
  cases r with
  | error e => exact ⟨e, rfl⟩
  | ok b => exact absurd ⟨b, rfl⟩ h

/-- The loop of `HexDecode` succeeds on a string of even length exactly when every byte
of it is a lower-case hex digit. -/
theorem hexDecodePairs_ok_iff : ∀ (n : Nat) (l : List Byte), l.length = 2 * n →
    ((∃ b, hexDecodePairs l = .ok b) ↔ ∀ c ∈ l, hexNibble c ≠ none) := by
  intro n
  induction n with
  | zero =>
    intro l hl
    have : l = [] := List.length_eq_zero.mp (by omega)
    subst this
    simp [hexDecodePairs]
  | succ k ih =>
    intro l hl
    match l, hl with
    | hi :: lo :: rest, hl =>
      have hrest : rest.length = 2 * k := by
        simp only [List.length_cons] at hl
        omega
      have ihr := ih rest hrest
      rw [hexDecodePairs]
      cases hh : hexNibble hi with
      | none =>
        simp only
        constructor
        · rintro ⟨b, hb⟩
          cases hb
        · intro hall
          exact absurd hh (hall hi (List.mem_cons_self _ _))
      | some high =>
        cases hlow : hexNibble lo with
        | none =>
          simp only
          constructor
          · rintro ⟨b, hb⟩
            cases hb
          · intro hall
            exact absurd hlow (hall lo (List.mem_cons_of_mem _ (List.mem_cons_self _ _)))
        | some low =>
          simp only
          cases hr : hexDecodePairs rest with
          | error e =>
            simp only
            constructor
            · rintro ⟨b, hb⟩
              cases hb
            · intro hall
              have : ∃ b, hexDecodePairs rest = .ok b :=
                ihr.2 (fun c hc => hall c (List.mem_cons_of_mem _ (List.mem_cons_of_mem _ hc)))
              rw [hr] at this
              obtain ⟨b, hb⟩ := this
              cases hb
          | ok bytes =>
            simp only
            constructor
            · intro _ c hc
              rw [List.mem_cons, List.mem_cons] at hc
              rcases hc with h | h | h
              · rw [h, hh]; simp
              · rw [h, hlow]; simp
              · exact ihr.1 ⟨bytes, hr⟩ c h
            · intro _
              exact ⟨_, rfl⟩

/-- The loop of `ModHexDecode` succeeds on a string of even length exactly when every byte
of it is in the decode table. -/
theorem modHexDecodePairs_ok_iff : ∀ (n : Nat) (l : List Byte), l.length = 2 * n →
    ((∃ b, modHexDecodePairs l = .ok b) ↔ ∀ c ∈ l, modHexDecode c ≠ none) := by
  intro n
  induction n with
  | zero =>
    intro l hl
    have : l = [] := List.length_eq_zero.mp (by omega)
    subst this
    simp [modHexDecodePairs]
  | succ k ih =>
    intro l hl
    match l, hl with
    | hi :: lo :: rest, hl =>
      have hrest : rest.length = 2 * k := by
        simp only [List.length_cons] at hl
        omega
      have ihr := ih rest hrest
      rw [modHexDecodePairs]
      cases hh : modHexDecode hi with
      | none =>
        simp only
        constructor
        · rintro ⟨b, hb⟩
          cases hb
        · intro hall
          exact absurd hh (hall hi (List.mem_cons_self _ _))
      | some high =>
        cases hlow : modHexDecode lo with
        | none =>
          simp only
          constructor
          · rintro ⟨b, hb⟩
            cases hb
          · intro hall
            exact absurd hlow (hall lo (List.mem_cons_of_mem _ (List.mem_cons_self _ _)))
        | some low =>
          simp only
          cases hr : modHexDecodePairs rest with
          | error e =>
            simp only
            constructor
            · rintro ⟨b, hb⟩
              cases hb
            · intro hall
              have : ∃ b, modHexDecodePairs rest = .ok b :=
                ihr.2 (fun c hc => hall c (List.mem_cons_of_mem _ (List.mem_cons_of_mem _ hc)))
              rw [hr] at this
              obtain ⟨b, hb⟩ := this
              cases hb
          | ok bytes =>
            simp only
            constructor
            · intro _ c hc
              rw [List.mem_cons, List.mem_cons] at hc
              rcases hc with h | h | h
              · rw [h, hh]; simp
              · rw [h, hlow]; simp
              · exact ihr.1 ⟨bytes, hr⟩ c h
            · intro _
              exact ⟨_, rfl⟩

set_option maxRecDepth 100000 in
/-- Byte by byte: the lower case of an ASCII byte is a hex digit, or in the modhex table,
exactly when the byte is a hex symbol, or a modhex symbol; a byte that is not ASCII is
neither a hex digit nor a hex symbol. -/
theorem symbol_bytes : ∀ c : Byte,
    (c.val < 0x80 → ((hexNibble (lowerByte c) ≠ none ↔ hexSymbol c)
      ∧ (modHexDecode (lowerByte c) ≠ none ↔ modHexSymbol c)))
    ∧ (0x80 ≤ c.val → hexNibble c = none ∧ ¬ hexSymbol c ∧ ¬ modHexSymbol c) := by
  decide

/-- On ASCII strings `ModHexDecode` succeeds exactly on the strings of even length made of
modhex symbols of either case. -/
theorem ModHexDecode_ascii (uni : List Byte → List Byte) (s : List Byte)
    (hascii : ∀ c ∈ s, c.val < 0x80) :
    (∃ b, ModHexDecode uni s = .ok b) ↔ (s.length % 2 = 0 ∧ ∀ c ∈ s, modHexSymbol c) := by
  unfold ModHexDecode
  simp only [ToLower_ascii uni s hascii, List.length_map]
  by_cases hodd : s.length % 2 ≠ 0
  · rw [if_pos hodd]
    constructor
    · rintro ⟨b, hb⟩
      cases hb
    · intro h
      exact absurd h.1 hodd
  · rw [if_neg hodd]
    have hlen : (s.map lowerByte).length = 2 * (s.length / 2) := by
      rw [List.length_map]
      omega
    rw [modHexDecodePairs_ok_iff _ _ hlen]
    constructor
    · intro h
      refine ⟨by omega, fun c hc => ?_⟩
      exact ((symbol_bytes c).1 (hascii c hc)).2.1 (h _ (List.mem_map_of_mem _ hc))
    · intro h c hc
      obtain ⟨d, hd, rfl⟩ := List.mem_map.mp hc
      exact ((symbol_bytes d).1 (hascii d hd)).2.2 (h.2 d hd)

/-- On ASCII strings `HexDecode` succeeds exactly on the strings of even length made of hex
symbols of either case. -/
theorem HexDecode_ascii (uni : List Byte → List Byte) (s : List Byte)
    (hascii : ∀ c ∈ s, c.val < 0x80) :
    (∃ b, HexDecode uni s = .ok b) ↔ (s.length % 2 = 0 ∧ ∀ c ∈ s, hexSymbol c) := by
  unfold HexDecode
  simp only [ToLower_ascii uni s hascii, List.length_map]
  by_cases hodd : s.length % 2 ≠ 0
  · rw [if_pos hodd]
    constructor
    · rintro ⟨b, hb⟩
      cases hb
    · intro h
      exact absurd h.1 hodd
  · rw [if_neg hodd]
    have hlen : (s.map lowerByte).length = 2 * (s.length / 2) := by
      rw [List.length_map]
      omega
    rw [hexDecodePairs_ok_iff _ _ hlen]
    constructor
    · intro h
      refine ⟨by omega, fun c hc => ?_⟩
      exact ((symbol_bytes c).1 (hascii c hc)).1.1 (h _ (List.mem_map_of_mem _ hc))
    · intro h c hc
      obtain ⟨d, hd, rfl⟩ := List.mem_map.mp hc
      exact ((symbol_bytes d).1 (hascii d hd)).1.2 (h.2 d hd)

/-- The function `HexDecode` fails on every string with a byte that is not ASCII, when
the Unicode lower-casing of such a string keeps a byte that is no hex digit. -/
theorem HexDecode_nonAscii (uni : List Byte → List Byte) (s : List Byte)
    (hlib : ∃ c ∈ uni s, hexNibble c = none) (hs : ∃ c ∈ s, 0x80 ≤ c.val) :
    ∃ e, HexDecode uni s = .error e := by
  unfold HexDecode
  simp only [ToLower_nonAscii uni s hs]
  by_cases hodd : (uni s).length % 2 ≠ 0
  · rw [if_pos hodd]
    exact ⟨_, rfl⟩
  · rw [if_neg hodd]
    apply error_of_not_ok
    have hlen : (uni s).length = 2 * ((uni s).length / 2) := by omega
    rw [hexDecodePairs_ok_iff _ _ hlen]
    intro hall
    obtain ⟨c, hc, hnone⟩ := hlib
    exact hall c hc hnone

/-- C11, the code at two strings outside the claim: the Kelvin sign followed by `k` (four
bytes, the first three no modhex symbols) is decoded to the byte `0x99`, and the capital I
with dot above followed by `i` (three bytes) is decoded to the byte `0x77`, because
`strings.ToLower` maps the two code points to `k` and `i` before the checks. -/
theorem C11_unicode_accepted :
    ModHexDecode lowerSpecial [0xe2, 0x84, 0xaa, 107] = .ok [0x99]
      ∧ ¬ modHexSymbol 0xe2
      ∧ ModHexDecode lowerSpecial [0xc4, 0xb0, 105] = .ok [0x77]
      ∧ [(0xc4 : Byte), 0xb0, 105].length % 2 ≠ 0 := by
  decide

/-- C12: for every string `s`, `HexDecode(s)` fails whenever `s` has odd length or contains
a character outside `0-9`, `a-f`, `A-F`, and succeeds otherwise. The Unicode tables enter
through one fact: the lower-casing of a string with a byte that is not ASCII keeps a byte
that is no hex digit (no code point outside ASCII has a hex digit as its lower case). -/
theorem C12_hex_decode_accepts (uni : List Byte → List Byte)
    (hlib : ∀ s : List Byte, (∃ c ∈ s, 0x80 ≤ c.val) → ∃ c ∈ uni s, hexNibble c = none)
    (s : List Byte) :
    ((s.length % 2 ≠ 0 ∨ ∃ c ∈ s, ¬ hexSymbol c) → ∃ e, HexDecode uni s = .error e)
      ∧ (¬ (s.length % 2 ≠ 0 ∨ ∃ c ∈ s, ¬ hexSymbol c) → ∃ b, HexDecode uni s = .ok b) := by
  by_cases hascii : ∀ c ∈ s, c.val < 0x80
  · have hiff := HexDecode_ascii uni s hascii
    constructor
    · intro hbad
      apply error_of_not_ok
      rw [hiff]
      rintro ⟨heven, hall⟩
      rcases hbad with h | ⟨c, hc, hn⟩
      · exact h heven
      · exact hn (hall c hc)
    · intro hgood
      rw [hiff]
      constructor
      · by_contra h
        exact hgood (Or.inl h)
      · intro c hc
        by_contra h
        exact hgood (Or.inr ⟨c, hc, h⟩)
  · have hs : ∃ c ∈ s, 0x80 ≤ c.val := by
      by_contra h
      apply hascii
      intro c hc
      by_contra hlt
      exact h ⟨c, hc, by omega⟩
    constructor
    · intro _
      exact HexDecode_nonAscii uni s (hlib s hs) hs
    · intro hgood
      obtain ⟨c, hc, hge⟩ := hs
      exact absurd (Or.inr ⟨c, hc, ((symbol_bytes c).2 hge).2.1⟩) hgood

set_option maxRecDepth 100000 in
theorem high_byte_facts : ∀ c : Byte, 0x80 ≤ c.val → lowerByte c = c ∧ hexNibble c = none := by
  decide

/-- The stand-in `lowerSpecial` has the property of the library that C12 uses. -/
theorem lowerSpecial_nonhex (s : List Byte) :
    (∃ c ∈ s, 0x80 ≤ c.val) → ∃ c ∈ lowerSpecial s, hexNibble c = none := by
  induction s using lowerSpecial.induct with
  | case1 rest ih =>
    intro _
    exact ⟨107, by simp [lowerSpecial], by decide⟩
  | case2 rest ih =>
    intro _
    exact ⟨105, by simp [lowerSpecial], by decide⟩
  | case3 c rest h1 h2 ih =>
    intro h
    rw [lowerSpecial]
    · by_cases hc : 0x80 ≤ c.val
      · exact ⟨c, by rw [(high_byte_facts c hc).1]; exact List.mem_cons_self _ _,
          (high_byte_facts c hc).2⟩
      · obtain ⟨d, hd, hge⟩ := h
        rw [List.mem_cons] at hd
        rcases hd with hd | hd
        · rw [hd] at hge
          exact absurd hge hc
        · obtain ⟨e, he, hn⟩ := ih ⟨d, hd, hge⟩
          exact ⟨e, List.mem_cons_of_mem _ he, hn⟩
    · exact h1
    · exact h2
  | case4 =>
    intro h
    obtain ⟨c, hc, -⟩ := h
    simp at hc

set_option maxRecDepth 100000 in
/-- C12 with the stand-in `lowerSpecial` as Unicode lower-casing, at `zz` and at the capital
I with dot above followed by `a` (both rejected) and at `10A035` (accepted). -/
theorem C12_hex_decode_accepts_witness :
    (∃ e, HexDecode lowerSpecial (str "zz") = .error e)
      ∧ (∃ e, HexDecode lowerSpecial [0xc4, 0xb0, 97] = .error e)
      ∧ (∃ b, HexDecode lowerSpecial (str "10A035") = .ok b) :=
  ⟨(C12_hex_decode_accepts lowerSpecial lowerSpecial_nonhex (str "zz")).1
      (Or.inr ⟨122, by decide, by decide⟩),
    (C12_hex_decode_accepts lowerSpecial lowerSpecial_nonhex [0xc4, 0xb0, 97]).1
      (Or.inl (by decide)),
    (C12_hex_decode_accepts lowerSpecial lowerSpecial_nonhex (str "10A035")).2 (by decide)⟩

/-! ## Letter case -/

set_option maxRecDepth 100000 in
/-- Upper-casing an ASCII byte gives an ASCII byte with the same lower case. -/
theorem upperByte_facts : ∀ c : Byte, c.val < 0x80 →
    (upperByte c).val < 0x80 ∧ lowerByte (upperByte c) = lowerByte c := by
  decide

theorem ToLower_upper (uni : List Byte → List Byte) (s : List Byte)
    (hascii : ∀ c ∈ s, c.val < 0x80) : ToLower uni (s.map upperByte) = ToLower uni s := by
  have hup : ∀ c ∈ s.map upperByte, c.val < 0x80 := by
    intro c hc
    obtain ⟨d, hd, rfl⟩ := List.mem_map.mp hc
    exact (upperByte_facts d (hascii d hd)).1
  rw [ToLower_ascii uni _ hup, ToLower_ascii uni s hascii, List.map_map]
  apply List.map_congr_left
  intro c hc
  exact (upperByte_facts c (hascii c hc)).2

/-- The codecs do not consult the Unicode tables on an ASCII string. -/
theorem decode_ascii_any (uni uni2 : List Byte → List Byte) (s : List Byte)
    (hascii : ∀ c ∈ s, c.val < 0x80) :
    ModHexDecode uni s = ModHexDecode uni2 s ∧ HexDecode uni s = HexDecode uni2 s := by
  unfold ModHexDecode HexDecode
  simp only [ToLower_ascii uni s hascii, ToLower_ascii uni2 s hascii, and_self]

set_option maxRecDepth 100000 in
/-- C13: for every ASCII string `s`, `ModHexDecode` and `HexDecode` give on `s` with its
letters upper-cased the same result, bytes or failure, as on `s`; and `10A035` and `10a035`
both decode to `[0x10, 0xa0, 0x35]`. -/
theorem C13_decode_case_insensitive (uni : List Byte → List Byte) (s : List Byte)
    (hascii : ∀ c ∈ s, c.val < 0x80) :
    ModHexDecode uni (s.map upperByte) = ModHexDecode uni s
      ∧ HexDecode uni (s.map upperByte) = HexDecode uni s
      ∧ HexDecode uni (str "10A035") = .ok [0x10, 0xa0, 0x35]
      ∧ HexDecode uni (str "10a035") = .ok [0x10, 0xa0, 0x35] := by
  refine ⟨?_, ?_, ?_, ?_⟩
  · unfold ModHexDecode
    simp only [ToLower_upper uni s hascii]
  · unfold HexDecode
    simp only [ToLower_upper uni s hascii]
  · rw [(decode_ascii_any uni id (str "10A035") (by decide)).2]
    decide
  · rw [(decode_ascii_any uni id (str "10a035") (by decide)).2]
    decide

set_option maxRecDepth 100000 in
/-- C13 at the modhex string `cbdv` and its upper case `CBDV`. -/
theorem C13_decode_case_insensitive_witness :
    (str "cbdv").map upperByte = str "CBDV"
      ∧ ModHexDecode id (str "CBDV") = ModHexDecode id (str "cbdv")
      ∧ ModHexDecode id (str "cbdv") = .ok [0x01, 0x2f] := by
  refine ⟨by decide, ?_, by decide⟩
  have h := (C13_decode_case_insensitive id (str "cbdv") (by decide)).1
  have e : (str "cbdv").map upperByte = str "CBDV" := by decide
  rw [e] at h
  exact h

/-! ## Decoding, then encoding -/

set_option maxRecDepth 100000 in
/-- A pair of modhex symbols is the encoding of the byte it decodes to; the same for a
pair of hex digits. Every symbol is lower-case ASCII. -/
theorem pair_encode :
    (∀ hi ∈ modHexAlphabet, ∀ lo ∈ modHexAlphabet,
      (modHexDecode hi).bind (fun high => (modHexDecode lo).map (fun low =>
        (modHexAlphabet.getD
            ((toByte (((high.val <<< 4) % 256) ||| low.val)).val >>> 4) 0,
          modHexAlphabet.getD
            ((toByte (((high.val <<< 4) % 256) ||| low.val)).val &&& 0x0f) 0)))
        = some (hi, lo))
    ∧ (∀ hi ∈ hexAlphabet, ∀ lo ∈ hexAlphabet,
      (hexNibble hi).bind (fun high => (hexNibble lo).map (fun low =>
        (hexAlphabet.getD
            ((toByte (((high.val <<< 4) % 256) ||| low.val)).val >>> 4) 0,
          hexAlphabet.getD
            ((toByte (((high.val <<< 4) % 256) ||| low.val)).val &&& 0x0f) 0)))
        = some (hi, lo))
    ∧ (∀ c ∈ modHexAlphabet, c.val < 0x80 ∧ lowerByte c = c)
    ∧ (∀ c ∈ hexAlphabet, c.val < 0x80 ∧ lowerByte c = c) := by
  decide

theorem modHexDecodePairs_canonical : ∀ (n : Nat) (l : List Byte), l.length = 2 * n →
    (∀ c ∈ l, c ∈ modHexAlphabet) →
    ∃ b, modHexDecodePairs l = .ok b ∧ ModHexEncode b = l := by
  intro n
  induction n with
  | zero =>
    intro l hl _
    have : l = [] := List.length_eq_zero.mp (by omega)
    subst this
    exact ⟨[], rfl, rfl⟩
  | succ k ih =>
    intro l hl hall
    match l, hl, hall with
    | hi :: lo :: rest, hl, hall =>
      have hrest : rest.length = 2 * k := by
        simp only [List.length_cons] at hl
        omega
      obtain ⟨b, hb, henc⟩ := ih rest hrest
        (fun c hc => hall c (List.mem_cons_of_mem _ (List.mem_cons_of_mem _ hc)))
      have hpair := pair_encode.1 hi (hall hi (List.mem_cons_self _ _)) lo
        (hall lo (List.mem_cons_of_mem _ (List.mem_cons_self _ _)))
      cases hh : modHexDecode hi with
      | none => rw [hh] at hpair; simp at hpair
      | some high =>
        cases hlow : modHexDecode lo with
        | none => rw [hh, hlow] at hpair; simp at hpair
        | some low =>
          rw [hh, hlow] at hpair
          simp only [Option.some_bind, Option.map_some', Option.some.injEq,
            Prod.mk.injEq] at hpair
          refine ⟨toByte (((high.val <<< 4) % 256) ||| low.val) :: b, ?_, ?_⟩
          · rw [modHexDecodePairs, hh, hlow]
            simp only [hb]
          · rw [ModHexEncode, hpair.1, hpair.2, henc]

theorem hexDecodePairs_canonical : ∀ (n : Nat) (l : List Byte), l.length = 2 * n →
    (∀ c ∈ l, c ∈ hexAlphabet) →
    ∃ b, hexDecodePairs l = .ok b ∧ HexEncode b = l := by
  intro n
  induction n with
  | zero =>
    intro l hl _
    have : l = [] := List.length_eq_zero.mp (by omega)
    subst this
    exact ⟨[], rfl, rfl⟩
  | succ k ih =>
    intro l hl hall
    match l, hl, hall with
    | hi :: lo :: rest, hl, hall =>
      have hrest : rest.length = 2 * k := by
        simp only [List.length_cons] at hl
        omega
      obtain ⟨b, hb, henc⟩ := ih rest hrest
        (fun c hc => hall c (List.mem_cons_of_mem _ (List.mem_cons_of_mem _ hc)))
      have hpair := pair_encode.2.1 hi (hall hi (List.mem_cons_self _ _)) lo
        (hall lo (List.mem_cons_of_mem _ (List.mem_cons_self _ _)))
      cases hh : hexNibble hi with
      | none => rw [hh] at hpair; simp at hpair
      | some high =>
        cases hlow : hexNibble lo with
        | none => rw [hh, hlow] at hpair; simp at hpair
        | some low =>
          rw [hh, hlow] at hpair
          simp only [Option.some_bind, Option.map_some', Option.some.injEq,
            Prod.mk.injEq] at hpair
          refine ⟨toByte (((high.val <<< 4) % 256) ||| low.val) :: b, ?_, ?_⟩
          · rw [hexDecodePairs, hh]
            simp only [hlow, hb]
          · rw [HexEncode, hpair.1, hpair.2, henc]

/-- C14: for every string `s` of even length over the lower-case alphabet
`cbdefghijklnrtuv`, `ModHexDecode(s)` succeeds and `ModHexEncode` of its bytes is `s`; for
every string `s` of even length over `0123456789abcdef`, `HexDecode(s)` succeeds and
`HexEncode` of its bytes is `s`. -/
theorem C14_decode_encode_canonical (uni : List Byte → List Byte) (s : List Byte)
    (heven : s.length % 2 = 0) :
    ((∀ c ∈ s, c ∈ str "cbdefghijklnrtuv") →
        ∃ b, ModHexDecode uni s = .ok b ∧ ModHexEncode b = s)
      ∧ ((∀ c ∈ s, c ∈ str "0123456789abcdef") →
        ∃ b, HexDecode uni s = .ok b ∧ HexEncode b = s) := by
  have hlen : s.length = 2 * (s.length / 2) := by omega
  constructor
  · intro hall
    have hlow := ToLower_of_lower uni s (fun c hc => pair_encode.2.2.1 c (hall c hc))
    obtain ⟨b, hb, henc⟩ := modHexDecodePairs_canonical _ s hlen hall
    refine ⟨b, ?_, henc⟩
    unfold ModHexDecode
    simp only [hlow]
    rw [if_neg (by omega), hb]
  · intro hall
    have hlow := ToLower_of_lower uni s (fun c hc => pair_encode.2.2.2 c (hall c hc))
    obtain ⟨b, hb, henc⟩ := hexDecodePairs_canonical _ s hlen hall
    refine ⟨b, ?_, henc⟩
    unfold HexDecode
    simp only [hlow]
    rw [if_neg (by omega), hb]

set_option maxRecDepth 100000 in
/-- C14 at the modhex string `dddd` and the hex string `10a035`. -/
theorem C14_decode_encode_canonical_witness :
    (∃ b, ModHexDecode id (str "dddd") = .ok b ∧ ModHexEncode b = str "dddd")
      ∧ (∃ b, HexDecode id (str "10a035") = .ok b ∧ HexEncode b = str "10a035") :=
  ⟨(C14_decode_encode_canonical id (str "dddd") (by decide)).1 (by decide),
    (C14_decode_encode_canonical id (str "10a035") (by decide)).2 (by decide)⟩

/-! ## The shape of the modhex encoding -/

theorem alphabet_getD : ∀ n < 16,
    (str "cbdefghijklnrtuv")[n]? = some (modHexAlphabet.getD n 0) := by
  decide

/-- The two symbols that `ModHexEncode` writes for the byte at position `i`. -/
theorem ModHexEncode_getElem (b : List Byte) :
    ∀ (i : Nat) (x : Byte), b[i]? = some x →
      (ModHexEncode b)[2 * i]? = some (modHexAlphabet.getD (x.val >>> 4) 0)
        ∧ (ModHexEncode b)[2 * i + 1]? = some (modHexAlphabet.getD (x.val &&& 0x0f) 0) := by
  induction b with
  | nil => intro i x h; simp at h
  | cons y rest ih =>
    intro i x h
    cases i with
    | zero =>
      simp only [List.getElem?_cons_zero, Option.some.injEq] at h
      subst h
      simp [ModHexEncode]
    | succ j =>
      simp only [List.getElem?_cons_succ] at h
      have e1 : 2 * (j + 1) = 2 * j + 1 + 1 := by omega
      rw [e1, ModHexEncode]
      simp only [List.getElem?_cons_succ]
      exact ih j x h

/-- C15: for every byte sequence `b` of length `n`, `ModHexEncode(b)` has length `2n`, and
for each `i < n` its character `2i` is `alphabet[b[i] >> 4]` and its character `2i+1` is
`alphabet[b[i] & 0x0f]`, with `alphabet = cbdefghijklnrtuv`; `[0x00]` gives `cc`, `[0xFF]`
gives `vv` and `[0x22, 0x22]` gives `dddd`. -/
theorem C15_modhex_encode_shape (b : List Byte) :
    (ModHexEncode b).length = 2 * b.length
      ∧ (∀ (i : Nat) (h : i < b.length),
          (ModHexEncode b)[2 * i]? = (str "cbdefghijklnrtuv")[b[i].val >>> 4]?
            ∧ (ModHexEncode b)[2 * i + 1]? = (str "cbdefghijklnrtuv")[b[i].val &&& 0x0f]?
            ∧ b[i].val >>> 4 < (str "cbdefghijklnrtuv").length
            ∧ b[i].val &&& 0x0f < (str "cbdefghijklnrtuv").length)
      ∧ ModHexEncode [0x00] = str "cc" ∧ ModHexEncode [0xff] = str "vv"
      ∧ ModHexEncode [0x22, 0x22] = str "dddd" := by
  refine ⟨ModHexEncode_length b, ?_, by decide, by decide, by decide⟩
  intro i h
  obtain ⟨h1, h2⟩ := ModHexEncode_getElem b i b[i] (List.getElem?_eq_getElem h)
  have hn := nibbles_lt b[i]
  refine ⟨?_, ?_, hn.1, hn.2⟩
  · rw [h1, alphabet_getD _ hn.1]
  · rw [h2, alphabet_getD _ hn.2]

/-- C15 at the bytes `[0x12, 0x34]`, position 1: the symbols 2 and 3 are `e` and `f`. -/
theorem C15_modhex_encode_shape_witness :
    (ModHexEncode [0x12, 0x34])[2 * 1]? = (str "cbdefghijklnrtuv")[3]?
      ∧ (ModHexEncode [0x12, 0x34])[2 * 1 + 1]? = (str "cbdefghijklnrtuv")[4]? := by
  have h := (C15_modhex_encode_shape [0x12, 0x34]).2.1 1 (by decide)
  exact ⟨h.1, h.2.1⟩

/-! ## The layout of the block -/

/-- The two bytes of `putUint16` for a 16-bit value, as numbers. -/
theorem putUint16_val (v : Nat) (hv : v < 65536) :
    (putUint16 v).map (fun c => c.val) = [v % 256, v / 256] := by
  simp only [putUint16, toByte, List.map_cons, List.map_nil, Nat.shiftRight_eq_div_pow]
  congr 1
  congr 1
  omega

/-- C16: for every block (with fields in the ranges of their types), `MarshalBinary` is
exactly 16 bytes: bytes 0-5 are `UID`, bytes 6-7 `Counter` little-endian, bytes 8-9 the low
16 bits of `Timestamp` little-endian, byte 10 bits 16-23 of `Timestamp`, byte 11 `Session`,
bytes 12-13 `Random` little-endian, bytes 14-15 `CRC` little-endian. -/
theorem C16_marshal_layout (b : TokenBlock) (hwf : b.WF) :
    b.MarshalBinary.length = 16
      ∧ b.MarshalBinary.take 6 = b.UID
      ∧ (b.MarshalBinary.drop 6).map (fun c => c.val)
          = [b.Counter % 256, b.Counter / 256,
             b.Timestamp % 65536 % 256, b.Timestamp % 65536 / 256,
             b.Timestamp / 65536 % 256,
             b.Session,
             b.Random % 256, b.Random / 256,
             b.CRC % 256, b.CRC / 256] := by
  obtain ⟨huid, hc, -, hs, hr, hcrc⟩ := hwf
  have hcopy : copyInto (List.replicate 6 0) b.UID = b.UID :=
    copyInto_same_length _ _ (by rw [List.length_replicate, huid])
  have hts : b.Timestamp &&& 0xffff = b.Timestamp % 65536 :=
    Nat.and_pow_two_sub_one_eq_mod b.Timestamp 16
  have hhi : (b.Timestamp >>> 16) &&& 0xff = b.Timestamp / 65536 % 256 := by
    rw [Nat.shiftRight_eq_div_pow]
    exact Nat.and_pow_two_sub_one_eq_mod _ 8
  have hshape : b.MarshalBinary = b.UID ++ (putUint16 b.Counter
      ++ putUint16 (b.Timestamp % 65536) ++ [toByte (b.Timestamp / 65536 % 256)]
      ++ [toByte b.Session] ++ putUint16 b.Random ++ putUint16 b.CRC) := by
    unfold TokenBlock.MarshalBinary
    rw [hcopy, hts, hhi, Nat.mod_mod]
    simp only [List.append_assoc]
  refine ⟨MarshalBinary_length b, ?_, ?_⟩
  · rw [hshape, List.take_left' huid]
  · rw [hshape, List.drop_left' huid]
    simp only [List.map_append, putUint16_val _ hc, putUint16_val _ hr, putUint16_val _ hcrc,
      putUint16_val _ (Nat.mod_lt b.Timestamp (by decide : 0 < 65536)), List.map_cons,
      List.map_nil, toByte, List.cons_append, List.nil_append]
    rw [Nat.mod_mod, Nat.mod_eq_of_lt hs]

/-- C16 at `sampleBlock`: the sixteen bytes. -/
theorem C16_marshal_layout_witness :
    sampleBlock.WF
      ∧ sampleBlock.MarshalBinary.take 6 = [0xaa, 0xbb, 0xcc, 0xdd, 0xee, 0xff]
      ∧ (sampleBlock.MarshalBinary.drop 6).map (fun c => c.val)
          = [0x02, 0x01, 0x05, 0x04, 0x03, 0x06, 0x08, 0x07, 0x0a, 0x09] := by
  have h := C16_marshal_layout sampleBlock (by decide)
  exact ⟨by decide, h.2.1, h.2.2⟩

/-! ## The shape of the OTP -/

theorem modHexAlphabet_mem : ∀ i < 16, modHexAlphabet.getD i 0 ∈ str "cbdefghijklnrtuv" := by
  decide

theorem ModHexEncode_mem (data : List Byte) :
    ∀ c ∈ ModHexEncode data, c ∈ str "cbdefghijklnrtuv" := by
  induction data with
  | nil => intro c hc; simp [ModHexEncode] at hc
  | cons b rest ih =>
    intro c hc
    simp only [ModHexEncode, List.mem_cons] at hc
    rcases hc with h | h | h
    · rw [h]; exact modHexAlphabet_mem _ (nibbles_lt b).1
    · rw [h]; exact modHexAlphabet_mem _ (nibbles_lt b).2
    · exact ih c h

/-- A successful `AESEncrypt` returns sixteen bytes. -/
theorem AESEncrypt_length (cipher : List Byte → List Byte → List Byte)
    (key pt ct : List Byte) (h : AESEncrypt cipher key pt = .ok ct) : ct.length = 16 := by
  unfold AESEncrypt at h
  split at h
  · cases h
  · split at h
    · cases h
    · simp only [Except.ok.injEq] at h
      rw [← h, copyInto_length, List.length_replicate]

/-- C17: for every token state (with a six-byte `PublicID`) on which `GenerateOTP`
succeeds, the OTP is exactly 44 characters, all from the alphabet `cbdefghijklnrtuv`; its
first 12 characters are `ModHexEncode(PublicID)` and its last 32 characters are
`ModHexEncode` of the 16-byte AES encryption, under the key of the token, of the
checksum-stamped block. -/
theorem C17_otp_shape (cipher : List Byte → List Byte → List Byte) (w : OTPWorld)
    (t : SoftToken) (hpub : t.PublicID.length = 6)
    (h : (t.GenerateOTP cipher w).2.err = none) :
    (t.GenerateOTP cipher w).2.text.length = 44
      ∧ (∀ c ∈ (t.GenerateOTP cipher w).2.text, c ∈ str "cbdefghijklnrtuv")
      ∧ (t.GenerateOTP cipher w).2.text.take 12 = ModHexEncode t.PublicID
      ∧ ∃ block ct, prepareBlock w t = ((t.GenerateOTP cipher w).1, .ok block)
          ∧ AESEncrypt cipher t.AESKey block.ComputeCRC.MarshalBinary = .ok ct
          ∧ ct.length = 16
          ∧ (t.GenerateOTP cipher w).2.text.drop 12 = ModHexEncode ct
          ∧ ((t.GenerateOTP cipher w).2.text.drop 12).length = 32 := by
  obtain ⟨block, ct, hp, ha, hx⟩ := GenerateOTP_ok cipher w t h
  obtain ⟨-, -, hpub2, hkey2⟩ := GenerateOTP_session cipher w t block hp
  rw [hpub2] at hx
  rw [hkey2] at ha
  have hct : ct.length = 16 := AESEncrypt_length cipher _ _ _ ha
  have h12 : (ModHexEncode t.PublicID).length = 12 := by
    rw [ModHexEncode_length, hpub]
  have h32 : (ModHexEncode ct).length = 32 := by
    rw [ModHexEncode_length, hct]
  refine ⟨?_, ?_, ?_, block, ct, hp, ha, hct, ?_, ?_⟩
  · rw [hx, List.length_append, h12, h32]
  · intro c hc
    rw [hx, List.mem_append] at hc
    rcases hc with hc | hc
    · exact ModHexEncode_mem _ c hc
    · exact ModHexEncode_mem _ c hc
  · rw [hx, List.take_left' h12]
  · rw [hx, List.drop_left' h12]
  · rw [hx, List.drop_left' h12, h32]

/-- C17 at `sampleToken` and `sampleWorld`. -/
theorem C17_otp_shape_witness :
    sampleToken.PublicID.length = 6
      ∧ (sampleToken.GenerateOTP sampleCipher sampleWorld).2.err = none
      ∧ (sampleToken.GenerateOTP sampleCipher sampleWorld).2.text.length = 44
      ∧ (sampleToken.GenerateOTP sampleCipher sampleWorld).2.text.take 12
          = ModHexEncode sampleToken.PublicID :=
  ⟨by decide, by decide,
    (C17_otp_shape sampleCipher sampleWorld sampleToken (by decide) (by decide)).1,
    (C17_otp_shape sampleCipher sampleWorld sampleToken (by decide) (by decide)).2.2.1⟩

/-! ## The lengths that the cipher adapter accepts -/

/-- C18, the claim as stated fails: with the three-byte key and the block of the test
`TestAESInvalidKeySize`, `AESEncrypt` returns `aes.KeySizeError(3)`, which is not
`ErrInvalidLength`; with a 16-byte key and a 15-byte block it returns
`aes.KeySizeError(16)`. -/
theorem C18_counterexample :
    AESEncrypt sampleCipher [0x00, 0x01, 0x02]
        [0x10, 0x11, 0x12, 0x13, 0x14, 0x15, 0x16, 0x17, 0x18, 0x19, 0x1a, 0x1b, 0x1c, 0x1d,
          0x1e, 0x1f] = .error (.keySize 3)
      ∧ AESEncrypt sampleCipher [0x00, 0x01, 0x02]
        [0x10, 0x11, 0x12, 0x13, 0x14, 0x15, 0x16, 0x17, 0x18, 0x19, 0x1a, 0x1b, 0x1c, 0x1d,
          0x1e, 0x1f] ≠ .error .invalidLength
      ∧ AESEncrypt sampleCipher sampleToken.AESKey (List.replicate 15 0)
          = .error (.keySize 16) := by
  decide

/-- C18, amended: for every key and every block, `AESEncrypt` returns an error and no
ciphertext whenever the key or the block is not exactly 16 bytes, the error being
`aes.KeySizeError(len(key))` when the key is not 16 bytes, and `TokenBlock.Generate` then
returns the empty string with that error; `AESEncrypt` returns a 16-byte ciphertext and no
error when both are exactly 16 bytes, and `Generate` succeeds for every 16-byte key. -/
theorem C18_aes_lengths (cipher : List Byte → List Byte → List Byte) (key pt : List Byte)
    (b : TokenBlock) :
    ((key.length ≠ 16 ∨ pt.length ≠ 16) → ∃ e, AESEncrypt cipher key pt = .error e)
      ∧ (key.length ≠ 16 → AESEncrypt cipher key pt = .error (.keySize key.length)
          ∧ (b.Generate cipher key).2 = ⟨[], some (.keySize key.length)⟩)
      ∧ (key.length = 16 → pt.length = 16 →
          ∃ ct, AESEncrypt cipher key pt = .ok ct ∧ ct.length = 16)
      ∧ (key.length = 16 → (b.Generate cipher key).2.err = none) := by
  have hbad : (key.length ≠ 16 ∨ pt.length ≠ 16) →
      AESEncrypt cipher key pt = .error (.keySize key.length) := by
    intro h
    unfold AESEncrypt
    rw [if_pos h]
  have hgood : ∀ p : List Byte, key.length = 16 → p.length = 16 →
      AESEncrypt cipher key p
        = .ok (copyInto (List.replicate 16 0) (cipher key p)) := by
    intro p hk hp
    unfold AESEncrypt aesNewCipher
    rw [if_neg (by simp [hk, hp]), if_pos (Or.inl hk)]
  refine ⟨fun h => ⟨_, hbad h⟩, ?_, ?_, ?_⟩
  · intro hk
    refine ⟨hbad (Or.inl hk), ?_⟩
    have : AESEncrypt cipher key b.ComputeCRC.MarshalBinary
        = .error (.keySize key.length) := by
      unfold AESEncrypt
      rw [if_pos (Or.inl hk)]
    simp only [TokenBlock.Generate, this]
  · intro hk hp
    exact ⟨_, hgood pt hk hp, by rw [copyInto_length, List.length_replicate]⟩
  · intro hk
    simp only [TokenBlock.Generate, hgood _ hk (MarshalBinary_length _)]

/-- C18 amended, at the three-byte key of the test and at the key of `sampleToken`. -/
theorem C18_aes_lengths_witness :
    (∃ e, AESEncrypt sampleCipher [0x00, 0x01, 0x02] (List.replicate 16 0x10) = .error e)
      ∧ (∃ ct, AESEncrypt sampleCipher sampleToken.AESKey (List.replicate 16 0x10) = .ok ct
          ∧ ct.length = 16) :=
  ⟨(C18_aes_lengths sampleCipher [0x00, 0x01, 0x02] (List.replicate 16 0x10) sampleBlock).1
      (Or.inl (by decide)),
    (C18_aes_lengths sampleCipher sampleToken.AESKey (List.replicate 16 0x10)
      sampleBlock).2.2.1 (by decide) (by decide)⟩

/-! ## Fresh tokens -/

theorem randRead_ok (n : Nat) (source : Option (List Byte)) (buf : List Byte)
    (h : randRead n source = .ok buf) : buf.length = n := by
  unfold randRead at h
  cases source with
  | none => cases h
  | some bytes =>
    simp only [Except.ok.injEq] at h
    rw [← h, copyInto_length, List.length_replicate]

/-- The token that `New` returns: the prefix and the lengths of its arrays, its counters,
its times and its power-on random value. -/
theorem New_shape (w : NewWorld) (t : SoftToken) (h : New w = .ok t) :
    t.PublicID.length = 6 ∧ t.PublicID[0]? = some 0x22 ∧ t.PublicID[1]? = some 0x22
      ∧ t.PrivateID.length = 6 ∧ t.AESKey.length = 16
      ∧ t.Counter = 1 ∧ t.Session = 1 ∧ t.Created = w.now ∧ t.LastUse = w.now
      ∧ t.PonRand &&& 0x0f = 0 ∧ t.PonRand < 4294967296 := by
  unfold New at h
  cases h1 : randRead 4 w.publicID <;> rw [h1] at h <;> simp only at h
  · cases h
  cases h2 : randRead 6 w.privateID <;> rw [h2] at h <;> simp only at h
  · cases h
  cases h3 : randRead 16 w.aesKey <;> rw [h3] at h <;> simp only at h
  · cases h
  cases h4 : randRead 4 w.ponRand <;> rw [h4] at h <;> simp only at h
  · cases h
  cases h
  have l1 := randRead_ok _ _ _ h1
  have l2 := randRead_ok _ _ _ h2
  have l3 := randRead_ok _ _ _ h3
  refine ⟨?_, ?_, ?_, l2, l3, rfl, rfl, rfl, rfl, ?_, ?_⟩
  · simp only [List.length_append, List.length_cons, List.length_nil, l1]
  · simp
  · simp
  · show (_ &&& 0xfffffff0) &&& 0x0f = 0
    rw [Nat.and_assoc]
    exact Nat.and_zero _
  · exact Nat.lt_of_le_of_lt Nat.and_le_right (by decide)

/-- C19, the claim as stated fails: with the 16-bit initial counter `0xffff` the token of
`NewWithOptions` has `Counter = 0`, not `0xffff + 1`. -/
theorem C19_counterexample :
    ∃ t, NewWithOptions sampleNewWorld (some [0x11, 0x22, 0x33, 0x44, 0x55, 0x66])
        (some [0xaa, 0xbb, 0xcc, 0xdd, 0xee, 0xff])
        (some [0, 1, 2, 3, 4, 5, 6, 7, 8, 9, 10, 11, 12, 13, 14, 15]) 0xffff = .ok t
      ∧ t.Counter = 0 ∧ t.Counter ≠ 0xffff + 1 :=
  ⟨_, rfl, by decide, by decide⟩

/-- C19, amended: for every 6-byte `publicID`, 6-byte `privateID`, 16-byte `aesKey` and
every initial counter `c`, when the random source succeeds `NewWithOptions` returns a token
whose `PublicID`, `PrivateID` and `AESKey` are the supplied bytes and whose `Counter` is
`c + 1` reduced modulo `2^16`: it is `c + 1` for every `c` below `0xffff`. -/
theorem C19_new_with_options (w : NewWorld) (publicID privateID aesKey : List Byte)
    (c : Nat) (t0 : SoftToken) (hpub : publicID.length = 6) (hpriv : privateID.length = 6)
    (hkey : aesKey.length = 16) (hnew : New w = .ok t0) :
    ∃ t, NewWithOptions w (some publicID) (some privateID) (some aesKey) c = .ok t
      ∧ t.PublicID = publicID ∧ t.PrivateID = privateID ∧ t.AESKey = aesKey
      ∧ t.Counter = (c + 1) % 65536 ∧ (c < 0xffff → t.Counter = c + 1) := by
  obtain ⟨l1, -, -, l2, l3, -⟩ := New_shape w t0 hnew
  have hres : NewWithOptions w (some publicID) (some privateID) (some aesKey) c
      = .ok { PublicID := copyInto t0.PublicID publicID
              PrivateID := copyInto t0.PrivateID privateID
              AESKey := copyInto t0.AESKey aesKey
              Counter := (c + 1) % 65536
              Session := t0.Session
              Created := t0.Created
              LastUse := t0.LastUse
              PonRand := t0.PonRand } := by
    simp only [NewWithOptions, hnew]
  refine ⟨_, hres, ?_, ?_, ?_, rfl, ?_⟩
  · exact copyInto_same_length _ _ (by rw [l1, hpub])
  · exact copyInto_same_length _ _ (by rw [l2, hpriv])
  · exact copyInto_same_length _ _ (by rw [l3, hkey])
  · intro hc
    exact Nat.mod_eq_of_lt (by omega)

/-- C19 amended, at the values of the test `TestNewWithOptions`: the initial counter 100
gives `Counter = 101`. -/
theorem C19_new_with_options_witness :
    ∃ t, NewWithOptions sampleNewWorld (some [0x11, 0x22, 0x33, 0x44, 0x55, 0x66])
        (some [0xaa, 0xbb, 0xcc, 0xdd, 0xee, 0xff])
        (some [0, 1, 2, 3, 4, 5, 6, 7, 8, 9, 10, 11, 12, 13, 14, 15]) 100 = .ok t
      ∧ t.PublicID = [0x11, 0x22, 0x33, 0x44, 0x55, 0x66]
      ∧ t.PrivateID = [0xaa, 0xbb, 0xcc, 0xdd, 0xee, 0xff]
      ∧ t.AESKey = [0, 1, 2, 3, 4, 5, 6, 7, 8, 9, 10, 11, 12, 13, 14, 15]
      ∧ t.Counter = 101 := by
  obtain ⟨t, h, h1, h2, h3, -, h5⟩ :=
    C19_new_with_options sampleNewWorld [0x11, 0x22, 0x33, 0x44, 0x55, 0x66]
      [0xaa, 0xbb, 0xcc, 0xdd, 0xee, 0xff]
      [0, 1, 2, 3, 4, 5, 6, 7, 8, 9, 10, 11, 12, 13, 14, 15] 100 _ rfl rfl rfl
      (rfl : New sampleNewWorld = .ok _)
  exact ⟨t, h, h1, h2, h3, h5 (by decide)⟩

/-- C20: for every outcome of the random source and every clock reading, a token returned
by a successful `New()` has `PublicID[0] == 0x22` and `PublicID[1] == 0x22`,
`Counter == 1`, `Session == 1`, `Created` and `LastUse` equal to the clock reading, and a
`PonRand` whose low four bits are 0. -/
theorem C20_new_token (w : NewWorld) (t : SoftToken) (h : New w = .ok t) :
    t.PublicID[0]? = some 0x22 ∧ t.PublicID[1]? = some 0x22
      ∧ t.Counter = 1 ∧ t.Session = 1 ∧ t.Created = w.now ∧ t.LastUse = w.now
      ∧ t.PonRand &&& 0x0f = 0 ∧ t.PonRand % 16 = 0 := by
  obtain ⟨-, p0, p1, -, -, hc, hs, hcr, hl, hp, -⟩ := New_shape w t h
  refine ⟨p0, p1, hc, hs, hcr, hl, hp, ?_⟩
  have e : t.PonRand &&& 0x0f = t.PonRand % 2 ^ 4 := Nat.and_pow_two_sub_one_eq_mod _ 4
  rw [e] at hp
  exact hp

/-- C20 at `sampleNewWorld`: `New` succeeds there. -/
theorem C20_new_token_witness :
    ∃ t, New sampleNewWorld = .ok t ∧ t.PublicID[0]? = some 0x22
      ∧ t.PublicID[1]? = some 0x22 ∧ t.Counter = 1 ∧ t.Session = 1
      ∧ t.Created = 1700000000 ∧ t.LastUse = 1700000000 ∧ t.PonRand % 16 = 0 := by
  have h := C20_new_token sampleNewWorld _ (rfl : New sampleNewWorld = .ok _)
  exact ⟨_, rfl, h.1, h.2.1, h.2.2.1, h.2.2.2.1, h.2.2.2.2.1, h.2.2.2.2.2.1,
    h.2.2.2.2.2.2.2⟩

/-! ## The steps of `GenerateOTP`, whatever the outcome -/

/-- The first step, case by case: it fails on an exhausted counter, leaving the token
alone; it fails on a failed random read with the counter already incremented; or it
succeeds, with the session advanced or wrapped. -/
theorem advanceSession_cases (w : OTPWorld) (t : SoftToken) :
    (t.Session = 0xff ∧ t.Counter ≥ 0x7fff
        ∧ advanceSession w t = (t, some .counterAtMax))
      ∨ (t.Session = 0xff ∧ t.Counter < 0x7fff ∧ w.ponRand = none
        ∧ advanceSession w t = ({ t with Counter := (t.Counter + 1) % 65536 },
            some (.wrapped "failed to generate ponrand" .randRead)))
      ∨ (t.Session = 0xff ∧ t.Counter < 0x7fff
        ∧ ∃ bytes, randRead 4 w.ponRand = .ok bytes
          ∧ advanceSession w t =
            ({ t with
                Counter := (t.Counter + 1) % 65536
                PonRand := uint32LE bytes &&& 0xfffffff0
                Session := 1 }, none))
      ∨ (t.Session ≠ 0xff
        ∧ advanceSession w t = ({ t with Session := (t.Session + 1) % 256 }, none)) := by
  unfold advanceSession
  by_cases hs : t.Session = 0xff
  · by_cases hc : t.Counter ≥ 0x7fff
    · left
      exact ⟨hs, hc, by rw [if_pos hs, if_pos hc]⟩
    · right
      rw [if_pos hs, if_neg hc]
      cases hp : w.ponRand with
      | none =>
        left
        exact ⟨hs, by omega, rfl, by simp [randRead]⟩
      | some bytes =>
        right
        left
        exact ⟨hs, by omega, _, rfl, by simp [randRead]⟩
  · right
    right
    right
    exact ⟨hs, by rw [if_neg hs]⟩

/-- The first step leaves the secret material and the two times alone, whatever its
outcome. -/
theorem advanceSession_frame (w : OTPWorld) (t : SoftToken) :
    (advanceSession w t).1.PublicID = t.PublicID
      ∧ (advanceSession w t).1.PrivateID = t.PrivateID
      ∧ (advanceSession w t).1.AESKey = t.AESKey
      ∧ (advanceSession w t).1.Created = t.Created
      ∧ (advanceSession w t).1.LastUse = t.LastUse := by
  rcases advanceSession_cases w t with h | h | h | h
  · rw [h.2.2]
    exact ⟨rfl, rfl, rfl, rfl, rfl⟩
  · rw [h.2.2.2]
    exact ⟨rfl, rfl, rfl, rfl, rfl⟩
  · obtain ⟨-, -, bytes, -, h⟩ := h
    rw [h]
    exact ⟨rfl, rfl, rfl, rfl, rfl⟩
  · rw [h.2]
    exact ⟨rfl, rfl, rfl, rfl, rfl⟩

/-- The token after the part of the call that builds the block: the token after the first
step when that step fails, the token after the rate limiting otherwise. -/
theorem prepareBlock_fst (w : OTPWorld) (t : SoftToken) :
    ((advanceSession w t).2 ≠ none ∧ (prepareBlock w t).1 = (advanceSession w t).1)
      ∨ ((advanceSession w t).2 = none
        ∧ (prepareBlock w t).1 = (rateLimit w (advanceSession w t).1).1) := by
  unfold prepareBlock
  rcases advanceSession w t with ⟨t1, e⟩
  cases e with
  | some e =>
    left
    exact ⟨by simp, rfl⟩
  | none =>
    right
    refine ⟨rfl, ?_⟩
    simp only
    cases randRead 2 w.rnd <;> rfl

/-- The rate limiting leaves `LastUse` alone or sets it to the first clock reading. -/
theorem rateLimit_lastUse (w : OTPWorld) (t : SoftToken) :
    (rateLimit w t).1.LastUse = t.LastUse ∨ (rateLimit w t).1.LastUse = w.now := by
  unfold rateLimit
  split
  · split
    · exact Or.inl rfl
    · exact Or.inl rfl
  · exact Or.inr rfl

/-- C25: for every token state, clock reading and random draw, `GenerateOTP`, whether it
succeeds or fails, leaves `PublicID`, `PrivateID`, `AESKey` and `Created` unchanged. -/
theorem C25_secret_material_frame (cipher : List Byte → List Byte → List Byte)
    (w : OTPWorld) (t : SoftToken) :
    (t.GenerateOTP cipher w).1.PublicID = t.PublicID
      ∧ (t.GenerateOTP cipher w).1.PrivateID = t.PrivateID
      ∧ (t.GenerateOTP cipher w).1.AESKey = t.AESKey
      ∧ (t.GenerateOTP cipher w).1.Created = t.Created := by
  have hf := advanceSession_frame w t
  have hr := rateLimit_frame w (advanceSession w t).1
  rw [GenerateOTP_token]
  rcases prepareBlock_fst w t with ⟨-, h⟩ | ⟨-, h⟩
  · rw [h]
    exact ⟨hf.1, hf.2.1, hf.2.2.1, hf.2.2.2.1⟩
  · rw [h]
    exact ⟨hr.2.1.trans hf.1, hr.2.2.1.trans hf.2.1, hr.2.2.2.1.trans hf.2.2.1,
      hr.2.2.2.2.1.trans hf.2.2.2.1⟩

/-- C21: for every token state (its `Session` a `uint8`, 0 included), after a successful
`GenerateOTP` call `Session` is in `1..0xFF`. -/
theorem C21_session_never_zero (cipher : List Byte → List Byte → List Byte) (w : OTPWorld)
    (t : SoftToken) (hs : t.Session < 256) (h : (t.GenerateOTP cipher w).2.err = none) :
    1 ≤ (t.GenerateOTP cipher w).1.Session ∧ (t.GenerateOTP cipher w).1.Session ≤ 0xff := by
  obtain ⟨block, ct, hp, -, -⟩ := GenerateOTP_ok cipher w t h
  rw [(GenerateOTP_session cipher w t block hp).2.1]
  unfold nextSession
  split <;> omega

/-- C21 at a token loaded with `Session = 0`: the call succeeds and `Session` is 1. -/
theorem C21_session_never_zero_witness :
    (({ sampleToken with Session := 0 } : SoftToken).GenerateOTP sampleCipher
        sampleWorld).2.err = none
      ∧ 1 ≤ (({ sampleToken with Session := 0 } : SoftToken).GenerateOTP sampleCipher
          sampleWorld).1.Session
      ∧ (({ sampleToken with Session := 0 } : SoftToken).GenerateOTP sampleCipher
          sampleWorld).1.Session ≤ 0xff :=
  ⟨by decide,
    C21_session_never_zero sampleCipher sampleWorld { sampleToken with Session := 0 }
      (by decide) (by decide)⟩

/-- C26: for every token state (its `Session` a `uint8`) on which the call succeeds: if
`Session != 0xFF` before the call, afterwards `Session` is the old `Session + 1` and
`Counter` is unchanged; if `Session == 0xFF`, then `Counter < 0x7FFF`, afterwards `Counter`
is the old `Counter + 1` and `Session == 1`, and the `PonRand` that goes into the
anti-collision step is the 32-bit value of the four bytes drawn, its low 4 bits cleared. -/
theorem C26_step_one (cipher : List Byte → List Byte → List Byte) (w : OTPWorld)
    (t : SoftToken) (hs : t.Session < 256) (h : (t.GenerateOTP cipher w).2.err = none) :
    (t.Session ≠ 0xff →
        (t.GenerateOTP cipher w).1.Session = t.Session + 1
          ∧ (t.GenerateOTP cipher w).1.Counter = t.Counter)
      ∧ (t.Session = 0xff →
        t.Counter < 0x7fff
          ∧ (t.GenerateOTP cipher w).1.Counter = t.Counter + 1
          ∧ (t.GenerateOTP cipher w).1.Session = 1
          ∧ ∃ bytes t1, randRead 4 w.ponRand = .ok bytes ∧ bytes.length = 4
            ∧ advanceSession w t = (t1, none)
            ∧ (t.GenerateOTP cipher w).1 = (rateLimit w t1).1
            ∧ t1.PonRand = uint32LE bytes &&& 0xfffffff0
            ∧ t1.PonRand &&& 0x0f = 0 ∧ t1.PonRand < 4294967296) := by
  obtain ⟨block, ct, hp, -, -⟩ := GenerateOTP_ok cipher w t h
  obtain ⟨t1, rndBytes, ha, ht2, -, -⟩ := prepareBlock_ok w t _ block hp
  have hr := rateLimit_frame w t1
  rw [← ht2] at hr
  rcases advanceSession_cases w t with hc | hc | hc | hc
  · rw [hc.2.2] at ha
    cases ha
  · rw [hc.2.2.2] at ha
    cases ha
  · obtain ⟨hff, hlt, bytes, hread, hadv⟩ := hc
    rw [hadv] at ha
    have ht1 : t1 =
        { t with
            Counter := (t.Counter + 1) % 65536
            PonRand := uint32LE bytes &&& 0xfffffff0
            Session := 1 } := (Prod.mk.inj ha).1.symm
    constructor
    · intro hne
      exact absurd hff hne
    · intro _
      refine ⟨hlt, ?_, ?_, bytes, t1, hread, randRead_ok _ _ _ hread, by rw [hadv, ht1], ht2,
        by rw [ht1], ?_, ?_⟩
      · rw [hr.2.2.2.2.2, ht1]
        exact Nat.mod_eq_of_lt (by omega)
      · rw [hr.1, ht1]
      · rw [ht1]
        show (_ &&& 0xfffffff0) &&& 0x0f = 0
        rw [Nat.and_assoc]
        exact Nat.and_zero _
      · rw [ht1]
        exact Nat.lt_of_le_of_lt Nat.and_le_right (by decide)
  · obtain ⟨hne, hadv⟩ := hc
    rw [hadv] at ha
    have ht1 : t1 = { t with Session := (t.Session + 1) % 256 } := (Prod.mk.inj ha).1.symm
    constructor
    · intro _
      constructor
      · rw [hr.1, ht1]
        exact Nat.mod_eq_of_lt (by omega)
      · rw [hr.2.2.2.2.2, ht1]
    · intro hff
      exact absurd hff hne

/-- C26 at `sampleToken` (no wrap: `Session` 1 becomes 2) and at the same token with
`Session = 0xff` (wrap: `Counter` 1 becomes 2, `Session` becomes 1). -/
theorem C26_step_one_witness :
    (sampleToken.GenerateOTP sampleCipher sampleWorld).1.Session = 2
      ∧ (sampleToken.GenerateOTP sampleCipher sampleWorld).1.Counter = 1
      ∧ (({ sampleToken with Session := 0xff } : SoftToken).GenerateOTP sampleCipher
          sampleWorld).1.Counter = 2
      ∧ (({ sampleToken with Session := 0xff } : SoftToken).GenerateOTP sampleCipher
          sampleWorld).1.Session = 1 := by
  have h1 := (C26_step_one sampleCipher sampleWorld sampleToken (by decide) (by decide)).1
    (by decide)
  have h2 := (C26_step_one sampleCipher sampleWorld { sampleToken with Session := 0xff }
    (by decide) (by decide)).2 rfl
  exact ⟨h1.1, h1.2, h2.2.1, h2.2.2.1⟩

/-! ## The direction of `LastUse` -/

/-- After a call, successful or not, `LastUse` is what it was or the first clock reading of
the call. -/
theorem GenerateOTP_lastUse (cipher : List Byte → List Byte → List Byte) (w : OTPWorld)
    (t : SoftToken) :
    (t.GenerateOTP cipher w).1.LastUse = t.LastUse
      ∨ (t.GenerateOTP cipher w).1.LastUse = w.now := by
  have hf := (advanceSession_frame w t).2.2.2.2
  rw [GenerateOTP_token]
  rcases prepareBlock_fst w t with ⟨-, h⟩ | ⟨-, h⟩
  · rw [h]
    exact Or.inl hf
  · rw [h]
    rcases rateLimit_lastUse w (advanceSession w t).1 with hl | hl
    · exact Or.inl (hl.trans hf)
    · exact Or.inr hl

/-- C22, the claim as stated fails: when the clock reads one second before `LastUse`, the
call succeeds and sets `LastUse` back to the clock reading. -/
theorem C22_counterexample :
    earlyWorld.now = 1699999999 ∧ sampleToken.LastUse = 1700000000
      ∧ (sampleToken.GenerateOTP sampleCipher earlyWorld).2.err = none
      ∧ (sampleToken.GenerateOTP sampleCipher earlyWorld).1.LastUse = 1699999999
      ∧ ¬ (sampleToken.GenerateOTP sampleCipher earlyWorld).1.LastUse ≥ sampleToken.LastUse := by
  decide

/-- C22, amended: for every token state and every clock reading that is not before the
`LastUse` of the token, `LastUse` after the call is greater than or equal to `LastUse`
before the call; for every clock reading, it is the old `LastUse` or the first clock
reading of the call. -/
theorem C22_lastUse_forward (cipher : List Byte → List Byte → List Byte) (w : OTPWorld)
    (t : SoftToken) :
    ((t.GenerateOTP cipher w).1.LastUse = t.LastUse
        ∨ (t.GenerateOTP cipher w).1.LastUse = w.now)
      ∧ (t.LastUse ≤ w.now → t.LastUse ≤ (t.GenerateOTP cipher w).1.LastUse) := by
  have h := GenerateOTP_lastUse cipher w t
  refine ⟨h, fun hle => ?_⟩
  rcases h with h | h
  · rw [h]
  · rw [h]
    exact hle

/-- C22 amended, at `sampleToken` and `sampleWorld`, whose clock is five seconds after the
last use. -/
theorem C22_lastUse_forward_witness :
    sampleToken.LastUse ≤ sampleWorld.now
      ∧ sampleToken.LastUse ≤ (sampleToken.GenerateOTP sampleCipher sampleWorld).1.LastUse :=
  ⟨by decide, (C22_lastUse_forward sampleCipher sampleWorld sampleToken).2 (by decide)⟩

/-! ## A failing random source -/

/-- C23, the claim as stated fails: with `Session = 0xff` and a failing random source the
call returns an error and `Counter` has gone from 1 to 2; with `Session = 1` and a failing
random source the call returns an error and `Session` and `LastUse` have changed. -/
theorem C23_counterexample :
    noRandomWorld.ponRand = none ∧ noRandomWorld.rnd = none
      ∧ (({ sampleToken with Session := 0xff } : SoftToken).GenerateOTP sampleCipher
          noRandomWorld).2.err = some (.wrapped "failed to generate ponrand" .randRead)
      ∧ sampleToken.Counter = 1
      ∧ (({ sampleToken with Session := 0xff } : SoftToken).GenerateOTP sampleCipher
          noRandomWorld).1.Counter = 2
      ∧ (sampleToken.GenerateOTP sampleCipher noRandomWorld).2.err
          = some (.wrapped "failed to generate random" .randRead)
      ∧ sampleToken.Session = 1
      ∧ (sampleToken.GenerateOTP sampleCipher noRandomWorld).1.Session = 2
      ∧ sampleToken.LastUse = 1700000000
      ∧ (sampleToken.GenerateOTP sampleCipher noRandomWorld).1.LastUse = 1700000005 := by
  decide

/-- C23, amended: for every token state, if the random source fails during `GenerateOTP`
the call returns an error and the token keeps what the steps before the failing read did.
When the read of the power-on random fails (`Session = 0xff`, `Counter < 0x7fff`), the
token after the call is the old one with `Counter + 1`. When the read of the per-OTP random
fails, the token after the call is the one left by the session step and the rate-limit
step. -/
theorem C23_random_failure (cipher : List Byte → List Byte → List Byte) (w : OTPWorld)
    (t : SoftToken) :
    (t.Session = 0xff → t.Counter < 0x7fff → w.ponRand = none →
        t.GenerateOTP cipher w
          = ({ t with Counter := t.Counter + 1 },
             ⟨[], some (.wrapped "failed to generate ponrand" .randRead)⟩))
      ∧ (∀ t1, advanceSession w t = (t1, none) → w.rnd = none →
        t.GenerateOTP cipher w
          = ((rateLimit w t1).1, ⟨[], some (.wrapped "failed to generate random" .randRead)⟩)) := by
  constructor
  · intro hs hc hp
    have hmod : (t.Counter + 1) % 65536 = t.Counter + 1 := Nat.mod_eq_of_lt (by omega)
    have ha : advanceSession w t
        = ({ t with Counter := t.Counter + 1 },
           some (.wrapped "failed to generate ponrand" .randRead)) := by
      unfold advanceSession
      rw [if_pos hs, if_neg (by omega), hp, hmod]
      rfl
    unfold SoftToken.GenerateOTP prepareBlock
    rw [ha]
  · intro t1 ha hr
    unfold SoftToken.GenerateOTP prepareBlock
    rw [ha, hr]
    rfl

/-- C23 amended, at `sampleToken` with `Session = 0xff` (the power-on read fails: `Counter`
is 2 after the call, `Session` still `0xff`) and at `sampleToken` (the per-OTP read fails:
`Session` is 2 after the call). -/
theorem C23_random_failure_witness :
    (({ sampleToken with Session := 0xff } : SoftToken).GenerateOTP sampleCipher noRandomWorld).1
        = { sampleToken with Session := 0xff, Counter := 2 }
      ∧ (sampleToken.GenerateOTP sampleCipher noRandomWorld).1.Session = 2
      ∧ (sampleToken.GenerateOTP sampleCipher noRandomWorld).2.err
          = some (.wrapped "failed to generate random" .randRead) := by
  have h1 := (C23_random_failure sampleCipher noRandomWorld
    { sampleToken with Session := 0xff }).1 rfl (by decide) rfl
  have h2 := (C23_random_failure sampleCipher noRandomWorld sampleToken).2
    (advanceSession noRandomWorld sampleToken).1 (by decide) rfl
  refine ⟨?_, ?_, ?_⟩
  · rw [h1]
    rfl
  · rw [h2]
    decide
  · rw [h2]

/-! ## The registration text -/

/-- C24: for every token `t` (its IDs six bytes and its key sixteen bytes long),
`RegistrationInfo(t)` equals `ModHexEncode(PublicID) ++ ", " ++ HexEncode(PrivateID) ++ ", "
++ HexEncode(AESKey)`, and so is exactly 60 characters long (12 + 2 + 12 + 2 + 32). -/
theorem C24_registration_info (t : SoftToken) (hpub : t.PublicID.length = 6)
    (hpriv : t.PrivateID.length = 6) (hkey : t.AESKey.length = 16) :
    t.RegistrationInfo
        = ModHexEncode t.PublicID ++ str ", " ++ HexEncode t.PrivateID ++ str ", "
          ++ HexEncode t.AESKey
      ∧ (ModHexEncode t.PublicID).length = 12 ∧ (str ", ").length = 2
      ∧ (HexEncode t.PrivateID).length = 12 ∧ (HexEncode t.AESKey).length = 32
      ∧ t.RegistrationInfo.length = 60 := by
  have h1 : (ModHexEncode t.PublicID).length = 12 := by rw [ModHexEncode_length, hpub]
  have h2 : (HexEncode t.PrivateID).length = 12 := by rw [HexEncode_length, hpriv]
  have h3 : (HexEncode t.AESKey).length = 32 := by rw [HexEncode_length, hkey]
  have hsep : (str ", ").length = 2 := by decide
  refine ⟨rfl, h1, hsep, h2, h3, ?_⟩
  unfold SoftToken.RegistrationInfo
  rw [List.length_append, List.length_append, List.length_append, List.length_append,
    h1, h2, h3, hsep]

/-- C24 at `sampleToken`: the text is `ddddcbcdcecf, aabbccddeeff, 00..0f`. -/
theorem C24_registration_info_witness :
    sampleToken.RegistrationInfo
        = str "ddddcbcdcecf, aabbccddeeff, 000102030405060708090a0b0c0d0e0f"
      ∧ sampleToken.RegistrationInfo.length = 60 := by
  have h := C24_registration_info sampleToken (by decide) (by decide) (by decide)
  exact ⟨by decide, h.2.2.2.2.2⟩

/-! ## Two emissions around the one-second sleep -/

/-- A call that stays in the second of the last use and bumps `PonRand` computes a
timestamp other than the one computed from the same second before the bump. -/
theorem rateLimit_bump_timestamp (w : OTPWorld) (t : SoftToken) (hp : t.PonRand < 4294967296)
    (hnow : w.now = t.LastUse) (hlow : ¬ (t.PonRand &&& 0x0000000f) > 6) :
    (rateLimit w t).2 = w.now
      ∧ hzTime (rateLimit w t).1 (rateLimit w t).2 ≠ hzTime t w.now := by
  have hr : rateLimit w t = ({ t with PonRand := (t.PonRand + 1) % 4294967296 }, w.now) := by
    unfold rateLimit
    rw [if_pos hnow, if_neg hlow]
  have hand : t.PonRand &&& 0x0000000f = t.PonRand % 16 :=
    Nat.and_pow_two_sub_one_eq_mod t.PonRand 4
  rw [hand] at hlow
  rw [hr]
  refine ⟨rfl, fun heq => ?_⟩
  have h1 := hzTime_eq { t with PonRand := (t.PonRand + 1) % 4294967296 } w.now
    (Nat.mod_lt _ (by decide))
  have h2 := hzTime_eq t w.now hp
  rw [heq, h2] at h1
  simp only at h1
  have hmod : ((t.PonRand + 1) % 4294967296 : Nat) = t.PonRand + 1 :=
    Nat.mod_eq_of_lt (by omega)
  rw [hmod] at h1
  push_cast at h1
  omega

/-- C27 at the failing input: `busyToken` was last used in second 1700000000 and the low
four bits of its `PonRand` are 7. The first call reads that second, sleeps, reads
1700000001 and computes its timestamp from it, leaving `LastUse` at 1700000000. The second
call reads 1700000001, which is not `LastUse`, and computes its timestamp from it with the
same `PonRand`. Both calls succeed, `Counter` stays 1, and both blocks carry the timestamp
3430026. -/
theorem C27_sleep_then_same_second :
    busyToken.LastUse = 1700000000 ∧ busyToken.PonRand &&& 0x0000000f = 7
      ∧ (busyToken.GenerateOTP sampleCipher sameSecondWorld).2.err = none
      ∧ (rateLimit sameSecondWorld (advanceSession sameSecondWorld busyToken).1).2 = 1700000001
      ∧ (busyToken.GenerateOTP sampleCipher sameSecondWorld).1.LastUse = 1700000000
      ∧ (busyToken.GenerateOTP sampleCipher sameSecondWorld).1.Counter = 1
      ∧ (prepareBlock sameSecondWorld busyToken).2.map (fun b => b.Timestamp) = .ok 3430026
      ∧ ((busyToken.GenerateOTP sampleCipher sameSecondWorld).1.GenerateOTP sampleCipher
          nextSecondWorld).2.err = none
      ∧ (rateLimit nextSecondWorld (advanceSession nextSecondWorld
          (busyToken.GenerateOTP sampleCipher sameSecondWorld).1).1).2 = 1700000001
      ∧ ((busyToken.GenerateOTP sampleCipher sameSecondWorld).1.GenerateOTP sampleCipher
          nextSecondWorld).1.Counter = 1
      ∧ (prepareBlock nextSecondWorld
          (busyToken.GenerateOTP sampleCipher sameSecondWorld).1).2.map (fun b => b.Timestamp)
          = .ok 3430026 := by
  decide

/-! ## The validator side: decode, decrypt, unmarshal -/

theorem uint16LE_lt (b : List Byte) : uint16LE b < 65536 := by
  unfold uint16LE
  have h0 := (b.getD 0 0).isLt
  have h1 := (b.getD 1 0).isLt
  have hs : (b.getD 1 0).val <<< 8 < 2 ^ 16 := by
    rw [Nat.shiftLeft_eq]
    omega
  exact Nat.or_lt_two_pow (by omega) hs

/-- Two bytes and a third as a little-endian number. -/
theorem or_shift_eq (a b k : Nat) (ha : a < 2 ^ k) : a ||| (b <<< k) = a + b * 2 ^ k := by
  rw [Nat.or_comm, Nat.shiftLeft_eq, Nat.mul_comm, ← Nat.mul_add_lt_is_or ha, Nat.add_comm]

theorem uint16LE_putUint16 (v : Nat) (hv : v < 65536) : uint16LE (putUint16 v) = v := by
  unfold uint16LE putUint16 toByte
  simp only [List.getD_cons_zero, List.getD_cons_succ, Nat.shiftRight_eq_div_pow]
  rw [or_shift_eq _ _ 8 (by omega)]
  omega

/-- The three timestamp bytes of the layout give a 24-bit timestamp back. -/
theorem timestamp_bytes (ts : Nat) (hts : ts < 16777216) :
    uint16LE (putUint16 ((ts &&& 0xffff) % 65536))
      ||| ((toByte ((ts >>> 16) &&& 0xff)).val <<< 16) = ts := by
  rw [uint16LE_putUint16 _ (Nat.mod_lt _ (by decide))]
  have h1 : ts &&& 0xffff = ts % 65536 := Nat.and_pow_two_sub_one_eq_mod ts 16
  have h2 : (ts >>> 16) &&& 0xff = (ts >>> 16) % 256 := Nat.and_pow_two_sub_one_eq_mod _ 8
  rw [h1, h2, Nat.shiftRight_eq_div_pow]
  unfold toByte
  simp only
  rw [or_shift_eq _ _ 16 (by omega)]
  omega

/-- Unmarshalling what `MarshalBinary` wrote gives the block back, when its fields are in
the ranges of their types and its timestamp fits in 24 bits. -/
theorem UnmarshalBinary_MarshalBinary (r b : TokenBlock) (hr : r.UID.length = 6)
    (hwf : b.WF) (hts : b.Timestamp < 16777216) :
    r.UnmarshalBinary b.MarshalBinary = .ok b := by
  obtain ⟨uid, c, ts, s, rnd, crc⟩ := b
  obtain ⟨huid, hc, -, hs, hrnd, hcrc⟩ := hwf
  simp only at huid hc hs hrnd hcrc hts
  have hc16 := uint16LE_putUint16 c hc
  have hr16 := uint16LE_putUint16 rnd hrnd
  have hk16 := uint16LE_putUint16 crc hcrc
  have ht24 := timestamp_bytes ts hts
  have hsb : (toByte s).val = s := Nat.mod_eq_of_lt hs
  unfold TokenBlock.UnmarshalBinary
  rw [if_neg (not_not.mpr (MarshalBinary_length _))]
  have hcopy : copyInto (List.replicate 6 0) uid = uid :=
    copyInto_same_length _ _ (by rw [List.length_replicate, huid])
  unfold TokenBlock.MarshalBinary
  simp only
  rw [hcopy]
  match uid, huid with
  | [u0, u1, u2, u3, u4, u5], _ =>
    have hcu : copyInto r.UID [u0, u1, u2, u3, u4, u5] = [u0, u1, u2, u3, u4, u5] :=
      copyInto_same_length _ _ hr
    unfold putUint16 at hc16 hr16 hk16 ht24 ⊢
    simp only [slice, List.cons_append, List.nil_append, List.drop_succ_cons, List.drop_zero,
      List.take_succ_cons, List.take_zero, List.getD_cons_succ, List.getD_cons_zero,
      Nat.reduceSub, hcu, hc16, hr16, hk16, ht24, hsb]

theorem advanceSession_counter_lt (w : OTPWorld) (t : SoftToken) (h : t.Counter < 65536) :
    (advanceSession w t).1.Counter < 65536 := by
  unfold advanceSession
  split
  · split
    · exact h
    · cases randRead 4 w.ponRand <;> exact Nat.mod_lt _ (by decide)
  · exact h

/-- A successful `AESEncrypt` was given a sixteen-byte key and a sixteen-byte block. -/
theorem AESEncrypt_args (cipher : List Byte → List Byte → List Byte) (key pt ct : List Byte)
    (h : AESEncrypt cipher key pt = .ok ct) : key.length = 16 ∧ pt.length = 16 := by
  unfold AESEncrypt at h
  split at h
  · cases h
  · rename_i hne
    constructor <;> by_contra hc <;> exact hne (by simp [hc])

/-- In the examples, `AESDecrypt` with `sampleDecipher` inverts `AESEncrypt` with
`sampleCipher`. -/
theorem sampleDecipher_inverts (key p ct : List Byte) (hk : key.length = 16)
    (h : AESEncrypt sampleCipher key p = .ok ct) :
    AESDecrypt sampleDecipher key ct = .ok p := by
  have hp := (AESEncrypt_args _ _ _ _ h).2
  have hct : ct = p.reverse :=
    AESEncrypt_ok sampleCipher key p ct (by simp [sampleCipher, hp]) h
  have hlen : ct.length = 16 := AESEncrypt_length _ _ _ _ h
  unfold AESDecrypt aesNewCipher
  rw [if_neg (by simp [hk, hlen]), if_pos (Or.inl hk)]
  simp only [sampleDecipher]
  rw [copyInto_same_length _ _ (by simp [hlen]), hct, List.reverse_reverse]

/-- C28, the validator path: for every token state (its `PrivateID` six bytes, its
`Counter` a `uint16`) on which `GenerateOTP` succeeds, assuming `AESDecrypt` inverts
`AESEncrypt` for a 16-byte key: ModHex-decoding the last 32 characters of the OTP gives 16
bytes; decrypting them with `AESDecrypt` under the key of the token gives a plaintext `p`
with `CRC16(p) == 0xF0B8`; and `UnmarshalBinary(p)` (on any receiver) returns a block with
`UID == PrivateID`, `Counter` and `Session` equal to the values of the token after the
call, and a `Timestamp` below `0xFFFFFF` equal to the one that `GenerateOTP` put in its
block. -/
theorem C28_validator_path (uni : List Byte → List Byte)
    (cipher decipher : List Byte → List Byte → List Byte) (w : OTPWorld) (t : SoftToken)
    (r : TokenBlock) (hr : r.UID.length = 6) (hpriv : t.PrivateID.length = 6)
    (hc : t.Counter < 65536)
    (hinv : ∀ key p ct, key.length = 16 → AESEncrypt cipher key p = .ok ct →
      AESDecrypt decipher key ct = .ok p)
    (h : (t.GenerateOTP cipher w).2.err = none) :
    ∃ ct p made dec,
      ModHexDecode uni ((t.GenerateOTP cipher w).2.text.drop
          ((t.GenerateOTP cipher w).2.text.length - 32)) = .ok ct
        ∧ ct.length = 16
        ∧ AESDecrypt decipher t.AESKey ct = .ok p
        ∧ CRC16 p = CRCOKResidual
        ∧ r.UnmarshalBinary p = .ok dec
        ∧ dec.UID = t.PrivateID
        ∧ dec.Counter = (t.GenerateOTP cipher w).1.Counter
        ∧ dec.Session = (t.GenerateOTP cipher w).1.Session
        ∧ dec.Timestamp < 0xffffff
        ∧ prepareBlock w t = ((t.GenerateOTP cipher w).1, .ok made)
        ∧ dec.Timestamp = made.Timestamp := by
  obtain ⟨made, ct, hp, henc, htext⟩ := GenerateOTP_ok cipher w t h
  obtain ⟨t1, rndBytes, ha, ht2, -, hmade⟩ := prepareBlock_ok w t _ made hp
  have hsess := GenerateOTP_session cipher w t made hp
  have hfr := rateLimit_frame w t1
  rw [← ht2] at hfr
  have hadv := advanceSession_ok w t t1 ha
  have hct : ct.length = 16 := AESEncrypt_length _ _ _ _ henc
  have hkey := (AESEncrypt_args _ _ _ _ henc).1
  have hdec := hinv _ _ _ hkey henc
  rw [hsess.2.2.2] at hdec
  have hprivate : (t.GenerateOTP cipher w).1.PrivateID = t.PrivateID := hfr.2.2.1.trans hadv.2.2.1
  have hcounter : (t.GenerateOTP cipher w).1.Counter < 65536 := by
    rw [hfr.2.2.2.2.2]
    have := advanceSession_counter_lt w t hc
    rw [ha] at this
    exact this
  have huid : made.UID = t.PrivateID := by
    rw [hmade]
    simp only
    rw [hprivate]
    exact copyInto_same_length _ _ (by rw [List.length_replicate, hpriv])
  have hts : made.Timestamp < 0xffffff := by
    rw [hmade]
    exact Nat.mod_lt _ (by decide)
  have hmc : made.Counter = (t.GenerateOTP cipher w).1.Counter := by rw [hmade]
  have hms : made.Session = (t.GenerateOTP cipher w).1.Session := by rw [hmade]
  have hrandom : made.Random < 65536 := by
    rw [hmade]
    exact uint16LE_lt _
  have hwf : made.ComputeCRC.WF := by
    refine ⟨?_, ?_, ?_, ?_, ?_, ?_⟩
    · show made.UID.length = 6
      rw [huid, hpriv]
    · show made.Counter < 65536
      rw [hmc]
      exact hcounter
    · show made.Timestamp < 4294967296
      omega
    · show made.Session < 256
      rw [hsess.1]
      exact nextSession_lt _
    · exact hrandom
    · show not16 (CRC16 (made.MarshalBinary.take 14)) < 65536
      have hcrc := CRC16_lt (made.MarshalBinary.take 14)
      have h16 : CRC16 (made.MarshalBinary.take 14) ^^^ 0xffff < 2 ^ 16 :=
        Nat.xor_lt_two_pow (by omega) (by decide)
      unfold not16
      omega
  have hround := UnmarshalBinary_MarshalBinary r made.ComputeCRC hr hwf
    (show made.Timestamp < 16777216 by omega)
  have hdrop : (t.GenerateOTP cipher w).2.text.drop ((t.GenerateOTP cipher w).2.text.length - 32)
      = ModHexEncode ct := by
    rw [htext]
    apply List.drop_left'
    rw [List.length_append, ModHexEncode_length ct, hct]
    omega
  refine ⟨ct, made.ComputeCRC.MarshalBinary, made, made.ComputeCRC, ?_, hct, hdec,
    CRC16_MarshalBinary_ComputeCRC made, hround, huid, hmc, hms, hts, hp, rfl⟩
  rw [hdrop]
  exact ModHexDecode_encode uni ct

/-- C28 at `sampleToken` and `sampleWorld`, with `sampleCipher` and its inverse, and the
zero block as receiver. -/
theorem C28_validator_path_witness :
    ∃ ct p made dec,
      ModHexDecode lowerSpecial ((sampleToken.GenerateOTP sampleCipher sampleWorld).2.text.drop
          ((sampleToken.GenerateOTP sampleCipher sampleWorld).2.text.length - 32)) = .ok ct
        ∧ ct.length = 16
        ∧ AESDecrypt sampleDecipher sampleToken.AESKey ct = .ok p
        ∧ CRC16 p = CRCOKResidual
        ∧ zeroBlock.UnmarshalBinary p = .ok dec
        ∧ dec.UID = sampleToken.PrivateID
        ∧ dec.Counter = (sampleToken.GenerateOTP sampleCipher sampleWorld).1.Counter
        ∧ dec.Session = (sampleToken.GenerateOTP sampleCipher sampleWorld).1.Session
        ∧ dec.Timestamp < 0xffffff
        ∧ prepareBlock sampleWorld sampleToken
            = ((sampleToken.GenerateOTP sampleCipher sampleWorld).1, .ok made)
        ∧ dec.Timestamp = made.Timestamp :=
  C28_validator_path lowerSpecial sampleCipher sampleDecipher sampleWorld sampleToken zeroBlock
    (by decide) (by decide) (by decide) sampleDecipher_inverts (by decide)

end YkSoft
